import Mathlib

/-!
Verification of the nocmodel repository (Network-on-Chip TLM simulator).

This file shallowly embeds the routing and transaction code of the
repository in Lean 4 and proves properties of it:

* `src/nocmodel/noc_base.py`:
    - `all_shortest_paths` (BFS predecessor structure from NetworkX plus
      the iterative DFS path enumeration),
    - `router.update_routes_info` (the routing-table builder).
* `src/nocmodel/basicmodels/basic_router.py`: the `basic_router_tlm`
    model: `recv`, `send`, the body of `routing_loop`, the body of
    `flush_fifo_out`, and the constructor's routing table.
* `src/nocmodel/basicmodels/basic_ipcore.py`: `basic_ipcore_tlm.recv`.
* `src/nocmodel/noc_tlm_base.py`: the `noc_tlm_errcodes` error codes.

Python dictionaries are embedded as insertion-ordered association lists
(`assocFind` / `assocSet` mirror `d[k]` lookup and `d[k] = v` assignment),
Python exceptions (`KeyError`, `ValueError`, `IndexError`) as an explicit
`Except pyerror` result, and MyHDL signals as a pair of current value
(`val`) and pending next value (`nxt`); writing `sig.next = x` in the
source sets only `nxt`.
-/

/-- Lookup in an insertion-ordered association list; embeds Python `d[k]`
(`none` corresponds to a raised `KeyError`). -/
def assocFind {α : Type} : List (Nat × α) → Nat → Option α
  | [], _ => none
  | (k, v) :: rest, key => if key = k then some v else assocFind rest key

/-- Assignment `d[key] = v` on an insertion-ordered association list:
replaces the value in place if the key exists, otherwise appends the new
binding at the end (Python dict insertion-order semantics). -/
def assocSet {α : Type} : List (Nat × α) → Nat → α → List (Nat × α)
  | [], key, v => [(key, v)]
  | (k, w) :: rest, key, v =>
      if key = k then (k, v) :: rest else (k, w) :: assocSet rest key v

/-- Decidable equality of `Except` results, so that concrete transaction
outcomes can be checked by `decide`. -/
instance {ε α : Type} [DecidableEq ε] [DecidableEq α] : DecidableEq (Except ε α) := fun x y =>
  match x, y with
  | .ok a, .ok b => decidable_of_iff (a = b) (by simp)
  | .ok _, .error _ => isFalse (fun h => Except.noConfusion h)
  | .error _, .ok _ => isFalse (fun h => Except.noConfusion h)
  | .error e, .error f => decidable_of_iff (e = f) (by simp)

/-- Error codes of `noc_tlm_base.noc_tlm_errcodes` (noc_tlm_base.py:246-255). -/
inductive noc_tlm_errcodes
  | no_error
  | full_fifo
  | packet_bad_data
  | tlm_badcall_recv
  | tlm_badcall_send
  | not_implemented
deriving DecidableEq, Repr

/-- Integer value of each error code, as assigned in noc_tlm_base.py. -/
def noc_tlm_errcodes.code : noc_tlm_errcodes → Int
  | .no_error => 0
  | .full_fifo => -1
  | .packet_bad_data => -2
  | .tlm_badcall_recv => -3
  | .tlm_badcall_send => -4
  | .not_implemented => -5

/-- Python runtime exceptions that the embedded code can raise. -/
inductive pyerror
  | keyError (key : Nat)
  | valueError
  | indexError
deriving DecidableEq, Repr

/-- A packet (noc_base.py `packet`): a dict of protocol fields. Routing
only reads the `dst` field; `src` and `payload` keep packets
distinguishable. -/
structure packet where
  src : Nat
  dst : Nat
  payload : Nat
deriving DecidableEq, Repr

/-- A MyHDL boolean signal: current value `val` and pending next value
`nxt` (a write `sig.next = b` sets only `nxt`; the simulator commits it at
the next delta cycle). -/
structure sigBool where
  val : Bool
  nxt : Bool
deriving DecidableEq, Repr

/-- A MyHDL signal carrying a packet (used by `basic_ipcore_tlm`). -/
structure sigPacket where
  val : packet
  nxt : packet
deriving DecidableEq, Repr

/-- One endpoint of a channel, as inspected by `basic_router_tlm.recv`
(basic_router.py:237-245): a router (identified by its address), an
ipcore (identified by the address of its `router_ref`), or some other
object. -/
inductive endpointRef
  | rtr (address : Nat)
  | ip (router_address : Nat)
  | other
deriving DecidableEq, Repr

/-- The `src` argument of `basic_router_tlm.recv` (basic_router.py:230-248):
an int address, a router object, a channel object (with its two
`endpoints`), or any other object. -/
inductive srcArg
  | addr (a : Nat)
  | rtr (address : Nat)
  | chan (ep0 ep1 : endpointRef)
  | other
deriving DecidableEq, Repr

/-- The `dest` argument of `basic_router_tlm.send` (basic_router.py:193-209):
an int address, a router object, a channel object (identified by a channel
id used to invoke its `tlm.recv`), or any other object. -/
inductive destArg
  | addr (a : Nat)
  | rtr (address : Nat)
  | chan (cid : Nat)
  | other
deriving DecidableEq, Repr

/-- Result of resolving `recv`'s `src` argument to a port address:
resolved, rejected (`tlm_badcall_recv`), or a raised Python exception. -/
inductive resolveResult
  | ok (addr : Nat)
  | badcall
  | exc (e : pyerror)
deriving DecidableEq, Repr

/-- One entry of `basic_router_tlm.ports_info` (basic_router.py:87-94):
the two FIFOs, their event signals, and the id of the channel connected
at this port (`data["channel"]`). The `peer` reference is not modelled:
the router code never reads it. -/
structure portInfo where
  fifo_in : List packet
  fifo_out : List packet
  fifo_in_event : sigBool
  fifo_out_event : sigBool
  channel : Nat
deriving DecidableEq, Repr

/-- The mutable state of a `basic_router_tlm` instance: its address,
`fifo_len`, the `ports_info` dict (key: port address, in insertion
order) and the `routingtable` dict (destination address to list of next
hops, first element preferred). -/
structure routerTLM where
  myaddress : Nat
  fifo_len : Nat
  ports_info : List (Nat × portInfo)
  routingtable : List (Nat × List Nat)
deriving DecidableEq, Repr

/-- Writing one port entry back into `ports_info`. -/
def routerTLM.setPort (r : routerTLM) (a : Nat) (p : portInfo) : routerTLM :=
  { r with ports_info := assocSet r.ports_info a p }

/-- Resolution of `recv`'s `src` argument to a source port address,
mirroring basic_router.py:230-248. An int is used directly; a router
object contributes its address; for a channel object the code runs
`src.endpoints.index(self.router_ref) - 1` (raising `ValueError` when the
router is not an endpoint) and takes the address of the opposite endpoint
(a router's own address, or an ipcore's `router_ref.address`); any other
object is rejected with `tlm_badcall_recv`. -/
def resolve_recv_src (my : Nat) (src : srcArg) : resolveResult :=
  match src with
  | .addr a => .ok a
  | .rtr a => .ok a
  | .chan ep0 ep1 =>
      if ep0 = endpointRef.rtr my then
        -- index 0, so src_index = -1 and the far end is endpoints[1]
        match ep1 with
        | .rtr a => .ok a
        | .ip ra => .ok ra
        | .other => .badcall
      else if ep1 = endpointRef.rtr my then
        -- index 1, so src_index = 0 and the far end is endpoints[0]
        match ep0 with
        | .rtr a => .ok a
        | .ip ra => .ok ra
        | .other => .badcall
      else
        -- self.router_ref not among the endpoints: list.index raises
        .exc .valueError
  | .other => .badcall

/-- The method `basic_router_tlm.recv` (basic_router.py:218-264). After
resolving `src` to a port address it indexes `self.ports_info[thesrc]`
(raising `KeyError` when the address is not a port), returns `full_fifo`
when that port's input FIFO holds exactly `fifo_len` packets, and
otherwise appends the packet to the input FIFO, sets the input event
signal's pending value and returns `no_error`. -/
def basic_router_recv (r : routerTLM) (src : srcArg) (pkt : packet) :
    Except pyerror (noc_tlm_errcodes × routerTLM) :=
  match resolve_recv_src r.myaddress src with
  | .badcall => .ok (.tlm_badcall_recv, r)
  | .exc e => .error e
  | .ok thesrc =>
    match assocFind r.ports_info thesrc with
    | none => .error (.keyError thesrc)
    | some d =>
      if d.fifo_in.length = r.fifo_len then
        .ok (.full_fifo, r)
      else
        .ok (.no_error, r.setPort thesrc
          { d with fifo_in := d.fifo_in ++ [pkt],
                   fifo_in_event := { d.fifo_in_event with nxt := true } })

/-- The method `basic_router_tlm.send` (basic_router.py:183-216),
instrumented with a call log. `router_addrs` is the address list of
`graph_ref.router_list()` (searched by `get_router_by_address`,
noc_base.py:381-385); `chan_recv cid pkt` is the return code of channel
`cid`'s `tlm.recv` called with packet `pkt`. The second component of the
result records every channel `recv` invocation made (channel id and
packet), so that "send does not invoke any recv" is expressible. An int
`dest` is looked up in the router list (`tlm_badcall_send` when absent)
and then `self.ports_info[therouter.address]["channel"]` is read (raising
`KeyError` when that router is not a port); a router object's address is
looked up in `ports_info` the same way; a channel object is used
directly; any other object is rejected with `tlm_badcall_send`. -/
def basic_router_send (r : routerTLM) (router_addrs : List Nat)
    (chan_recv : Nat → packet → noc_tlm_errcodes) (dest : destArg) (pkt : packet) :
    Except pyerror (noc_tlm_errcodes × List (Nat × packet)) :=
  match dest with
  | .addr a =>
    match router_addrs.find? (fun x => x = a) with
    | none => .ok (.tlm_badcall_send, [])
    | some found =>
      match assocFind r.ports_info found with
      | none => .error (.keyError found)
      | some d => .ok (chan_recv d.channel pkt, [(d.channel, pkt)])
  | .rtr a =>
    match assocFind r.ports_info a with
    | none => .error (.keyError a)
    | some d => .ok (chan_recv d.channel pkt, [(d.channel, pkt)])
  | .chan cid => .ok (chan_recv cid pkt, [(cid, pkt)])
  | .other => .ok (.tlm_badcall_send, [])

/-- One iteration of the inner `while` body of the `routing_loop` process
(basic_router.py:150-176) for the port `port`: when the port's input FIFO
is non-empty, pop its oldest packet, clear the input event's pending
value, look up the packet's `dst` in `self.routingtable` (a missing key
raises `KeyError`; `[0]` on an empty route list raises `IndexError`),
append the packet to the output FIFO of the port toward the preferred
next hop (`KeyError` when that address is not a port) and set that output
event's pending value. When the input FIFO is empty the body does not
run. -/
def routing_loop_step (r : routerTLM) (port : Nat) : Except pyerror routerTLM :=
  match assocFind r.ports_info port with
  | none => .error (.keyError port)
  | some d =>
    match d.fifo_in with
    | [] => .ok r
    | pkt :: rest =>
      let r1 := r.setPort port
        { d with fifo_in := rest,
                 fifo_in_event := { d.fifo_in_event with nxt := false } }
      match assocFind r.routingtable pkt.dst with
      | none => .error (.keyError pkt.dst)
      | some routes =>
        match routes.head? with
        | none => .error .indexError
        | some nextaddr =>
          match assocFind r1.ports_info nextaddr with
          | none => .error (.keyError nextaddr)
          | some nd =>
            .ok (r1.setPort nextaddr
              { nd with fifo_out := nd.fifo_out ++ [pkt],
                        fifo_out_event := { nd.fifo_out_event with nxt := true } })

/-- One iteration of the `for` body of the `flush_fifo_out` process
(basic_router.py:124-144) for the port `port`: when the port's output
FIFO is non-empty, pop its oldest packet and send it through the port's
channel via `self.send(self.router_ref, data["channel"], packet)`. On
`no_error` the output event's pending value is cleared; on any other
return code the packet is appended (at the back) to the same output FIFO.
When the output FIFO is empty the body does not run. -/
def flush_fifo_out_step (r : routerTLM) (router_addrs : List Nat)
    (chan_recv : Nat → packet → noc_tlm_errcodes) (port : Nat) :
    Except pyerror routerTLM :=
  match assocFind r.ports_info port with
  | none => .error (.keyError port)
  | some d =>
    match d.fifo_out with
    | [] => .ok r
    | pkt :: rest =>
      match basic_router_send r router_addrs chan_recv (.chan d.channel) pkt with
      | .error e => .error e
      | .ok (retval, _) =>
        if retval = noc_tlm_errcodes.no_error then
          .ok (r.setPort port
            { d with fifo_out := rest,
                     fifo_out_event := { d.fifo_out_event with nxt := false } })
        else
          .ok (r.setPort port { d with fifo_out := rest ++ [pkt] })

/-- The state of a `basic_ipcore_tlm` instance: its two packet signals
(basic_ipcore.py:83-84). -/
structure ipTLM where
  incoming_packet : sigPacket
  outgoing_packet : sigPacket
deriving DecidableEq, Repr

/-- The method `basic_ipcore_tlm.recv` (basic_ipcore.py:140-154): it
unconditionally writes the received packet to the pending value of the
`incoming_packet` signal and returns `no_error`. -/
def basic_ipcore_recv (s : ipTLM) (pkt : packet) : noc_tlm_errcodes × ipTLM :=
  (.no_error,
   { s with incoming_packet := { s.incoming_packet with nxt := pkt } })

/-- Invariant of claim C2 restricted to input FIFOs: every port's input
FIFO holds at most `fifo_len` packets. -/
def fifo_in_bounded (r : routerTLM) : Prop :=
  ∀ pr ∈ r.ports_info, (pr.2).fifo_in.length ≤ r.fifo_len

instance (r : routerTLM) : Decidable (fifo_in_bounded r) :=
  List.decidableBAll _ r.ports_info

/-- The topology graph (`noc` in noc_base.py, a NetworkX `Graph`): the
node list (in insertion order, as iterated by `router_list`,
noc_base.py:354-358) and the adjacency dict `G[v]` as an
insertion-ordered association list. Since the NoC container always
assigns `router_ref.address = router_ref.index` when a router is added
(noc_base.py:110), node ids, router indices and router addresses
coincide in this embedding. -/
structure Graph where
  nodes : List Nat
  adjList : List (Nat × List Nat)
deriving DecidableEq, Repr

/-- Neighbor list `G[v]`, in adjacency-dict order. -/
def Graph.adj (g : Graph) (n : Nat) : List Nat := (assocFind g.adjList n).getD []

/-- Well-formedness of a topology graph as NetworkX maintains it for an
undirected `Graph`: distinct nodes, adjacency keys are nodes, neighbors
are nodes, and adjacency is symmetric. All fields are decidable on a
concrete graph. -/
structure GraphWF (g : Graph) : Prop where
  nodes_nodup : g.nodes.Nodup
  adj_keys : ∀ kv ∈ g.adjList, kv.1 ∈ g.nodes
  adj_mem : ∀ x ∈ g.nodes, ∀ y ∈ g.adj x, y ∈ g.nodes
  adj_symm : ∀ x ∈ g.nodes, ∀ y ∈ g.adj x, x ∈ g.adj y

/-- Pointwise update of a function, used for Python dict writes in the
BFS state. -/
def fnUpdate {α : Type} (f : Nat → α) (k : Nat) (v : α) : Nat → α :=
  fun x => if x = k then v else f x

/-- State of the BFS in NetworkX `predecessor(G, b)` (the helper that
`all_shortest_paths` calls, noc_base.py:867): the `seen` dict (node to
BFS level), the `pred` dict (node to its list of predecessors, in
discovery order) and the `nextlevel` list being collected. -/
structure bfsState where
  seen : Nat → Option Nat
  pred : Nat → Option (List Nat)
  nextlevel : List Nat

/-- Processing one neighbor `w` of `v` at BFS level `level`: a fresh node
gets `pred[w] = [v]`, `seen[w] = level` and joins `nextlevel`; a node
first seen at this same level gets `v` appended to `pred[w]`; otherwise
nothing happens. -/
def bfs_visit_edge (level v : Nat) (st : bfsState) (w : Nat) : bfsState :=
  match st.seen w with
  | none =>
      { seen := fnUpdate st.seen w (some level)
        pred := fnUpdate st.pred w (some [v])
        nextlevel := st.nextlevel ++ [w] }
  | some l =>
      if l = level then
        { st with pred := fnUpdate st.pred w (some ((st.pred w).getD [] ++ [v])) }
      else st

/-- Processing all neighbors of one node `v` of `thislevel`. -/
def bfs_visit_node (g : Graph) (level : Nat) (st : bfsState) (v : Nat) : bfsState :=
  (g.adj v).foldl (bfs_visit_edge level v) st

/-- Processing one whole BFS level (`for v in thislevel: for w in G[v]`). -/
def bfs_level (g : Graph) (level : Nat) (thislevel : List Nat) (st : bfsState) : bfsState :=
  thislevel.foldl (bfs_visit_node g level) st

/-- The `while nextlevel:` loop of NetworkX `predecessor`. The source
loop needs no fuel (it stops when no new node is discovered); here `fuel`
is a termination device, and `bfs_loop_fuel_sufficient` below shows that
the fuel chosen in `nx_predecessor` always reaches the natural exit. -/
def bfs_loop (g : Graph) : Nat → Nat → List Nat → bfsState → bfsState
  | 0, _, _, st => st
  | fuel + 1, level, nextlevel, st =>
    match nextlevel with
    | [] => st
    | _ :: _ =>
      let st1 := bfs_level g (level + 1) nextlevel { st with nextlevel := [] }
      bfs_loop g fuel (level + 1) st1.nextlevel st1

/-- NetworkX `predecessor(G, b)` as called by `all_shortest_paths`
(noc_base.py:867): BFS from `b` computing, for every reachable node, its
BFS level and its list of predecessors (neighbors one level closer to
`b`, in discovery order). -/
def nx_predecessor (g : Graph) (b : Nat) : bfsState :=
  bfs_loop g (g.nodes.length + 2) 0 [b]
    { seen := fnUpdate (fun _ => none) b (some 0)
      pred := fnUpdate (fun _ => none) b (some [])
      nextlevel := [] }

/-- The DFS path enumeration of `all_shortest_paths`
(noc_base.py:870-888), in its recursive reading: starting at `n`, record
`[n]` if `n` is the target `b`, and otherwise extend `n` by every path
from every predecessor of `n`, predecessors in `pred`-list order,
depth-first. This is exactly the traversal the explicit-stack loop of
the source performs, with its record-then-explore order; `fuel` bounds
the recursion depth and exceeds every `pred`-chain length at the call
site. -/
def bfs_paths (pred : Nat → Option (List Nat)) (b : Nat) : Nat → Nat → List (List Nat)
  | 0, n => if n = b then [[n]] else []
  | fuel + 1, n =>
      (if n = b then [[n]] else []) ++
        ((pred n).getD []).flatMap (fun m => (bfs_paths pred b fuel m).map (fun p => n :: p))

/-- The function `all_shortest_paths(G, a, b)` (noc_base.py:858-888):
empty when `a` has no entry in the predecessor dict of `b` (not
reachable), otherwise the DFS enumeration of all shortest paths from `a`
to `b`, in discovery order. -/
def all_shortest_paths (g : Graph) (a b : Nat) : List (List Nat) :=
  let st := nx_predecessor g b
  if (st.pred a).isSome then
    bfs_paths st.pred b (g.nodes.length + 1) a
  else []

/-- One entry of `routes_info` (noc_base.py:637): the address of the next
router and the list of shortest paths through it, in discovery order. -/
structure RouteEntry where
  next : Nat
  paths : List (List Nat)
deriving DecidableEq, Repr

/-- The expression `route[1]` used by the grouping loop of
`update_routes_info`: the first hop after the source. Rendered totally;
in every use the route is a shortest path between distinct routers and
so has at least two elements (`all_shortest_paths_length` below). -/
def routeNext (route : List Nat) : Option Nat := route.get? 1

/-- The body of the grouping loop of `update_routes_info`
(noc_base.py:626-637) for one enumerated path: if some existing entry has
the same first hop, the path is appended to the path list of every such
entry; otherwise a new entry is appended at the end. -/
def addRoute (entries : List RouteEntry) (route : List Nat) : List RouteEntry :=
  if entries.any (fun e => routeNext route = some e.next) then
    entries.map (fun e =>
      if routeNext route = some e.next then { e with paths := e.paths ++ [route] } else e)
  else
    entries ++ [{ next := (routeNext route).getD 0, paths := [route] }]

/-- The `routes_info` value computed for one destination: the grouping
fold over the enumerated shortest paths, starting from the empty entry
list. The source first converts node hashes to router addresses
(noc_base.py:616); that conversion is the identity here because the NoC
container keeps `address = index` (noc_base.py:110). -/
def buildRouteList (g : Graph) (src dest : Nat) : List RouteEntry :=
  (all_shortest_paths g src dest).foldl addRoute []

set_option linter.unusedVariables false in
/-- The method `router.update_routes_info` (noc_base.py:585-639) as a
state transformer on the `routes_info` dict: the old dict is cleared
(noc_base.py:598) and, for every router of the graph other than this
one, in `router_list` order, the entry list for that destination is
assigned. -/
def update_routes_info (g : Graph) (i : Nat)
    (old_routes_info : List (Nat × List RouteEntry)) : List (Nat × List RouteEntry) :=
  -- self.routes_info.clear() discards the previous table entirely
  let cleared : List (Nat × List RouteEntry) := []
  (g.nodes.filter (fun d => d ≠ i)).foldl
    (fun t d => assocSet t d (buildRouteList g i d)) cleared

/-- The routing table built by the `basic_router_tlm` constructor
(basic_router.py:99-109): for each destination of `routes_info` the list
of next-hop addresses of its entries, and then the synthetic self-route
`routingtable[myaddress] = [myaddress]`. -/
def mk_routingtable (g : Graph) (i : Nat) : List (Nat × List Nat) :=
  let detailed := update_routes_info g i []
  let base := detailed.map (fun de => (de.1, de.2.map (fun e => e.next)))
  assocSet base i [i]

/-- The preferred next hop from router `cur` toward `dest`: the `next`
field of the index-0 entry of `routes_info` as built by
`update_routes_info` (claim C1's chain step). -/
def preferred_next (g : Graph) (cur dest : Nat) : Option Nat :=
  match assocFind (update_routes_info g cur []) dest with
  | none => none
  | some entries => entries.head?.map (fun e => e.next)

/-- Following the preferred next hop `k` times starting from `cur`. -/
def follow_preferred (g : Graph) (dest : Nat) : Nat → Nat → Option Nat
  | 0, cur => some cur
  | k + 1, cur =>
    match preferred_next g cur dest with
    | none => none
    | some nxt => follow_preferred g dest k nxt

/-- A walk of length `n` in the graph, the specification-side notion of
hop-by-hop connectivity. -/
inductive Walk (g : Graph) : Nat → Nat → Nat → Prop
  | nil (a : Nat) : Walk g a a 0
  | cons {a b c n : Nat} : b ∈ g.adj a → Walk g b c n → Walk g a c (n + 1)

/-- The specification-side shortest-path hop distance: `d` is the length
of some walk from `a` to `b` and no walk is shorter. -/
def isShortestDist (g : Graph) (a b d : Nat) : Prop :=
  Walk g a b d ∧ ∀ m, Walk g a b m → d ≤ m

/-- Appending an element at the end unless it is already present; one
step of collecting values in first-occurrence order. -/
def insertIfNew (acc : List Nat) (x : Nat) : List Nat :=
  if x ∈ acc then acc else acc ++ [x]

/-- The distinct values of a list in the order of their first
occurrence. The next-hop column of a `routes_info` entry list is exactly
this sequence applied to the second nodes of the enumerated paths,
because `update_routes_info` appends a new entry at the end exactly when
a path's first hop has not been seen before (noc_base.py:637). -/
def firstOccurrences (xs : List Nat) : List Nat := xs.foldl insertIfNew []

/-- Invariant of the BFS state while one level is being processed:
`LV` is the level currently being assigned, `thislevel` the list of
nodes being expanded (exactly the nodes at level `LV - 1`), and
`st.nextlevel` collects exactly the nodes first seen at level `LV`.
`pred` lists, for every seen node at level `l ≥ 1`, a non-empty set of
neighbors seen at level `l - 1`. -/
structure BfsMidInv (g : Graph) (b LV : Nat) (thislevel : List Nat) (st : bfsState) : Prop where
  seen_b : st.seen b = some 0
  zero_b : ∀ x, st.seen x = some 0 → x = b
  level_le : ∀ x l, st.seen x = some l → l ≤ LV
  mem_nodes : ∀ x, (st.seen x).isSome → x ∈ g.nodes
  prev_iff : ∀ x, st.seen x = some (LV - 1) ↔ x ∈ thislevel
  top_iff : ∀ x, st.seen x = some LV ↔ x ∈ st.nextlevel
  pred_dom : ∀ x, (st.pred x).isSome ↔ (st.seen x).isSome
  pred_b : st.pred b = some []
  pred_props : ∀ x l ps, st.seen x = some l → st.pred x = some ps → 1 ≤ l →
    ps ≠ [] ∧ ∀ u ∈ ps, st.seen u = some (l - 1) ∧ x ∈ g.adj u
  complete_lt : ∀ x l, st.seen x = some l → l + 1 < LV → ∀ w ∈ g.adj x,
    ∃ lw, st.seen w = some lw ∧ lw ≤ l + 1

/-- Invariant of the BFS between two iterations of the `while` loop:
`nextlevel` holds exactly the nodes at the current top level `level`,
and the adjacency of every node strictly below the top level has been
fully expanded. -/
structure BfsLoopInv (g : Graph) (b level : Nat) (nextlevel : List Nat)
    (seen : Nat → Option Nat) (pred : Nat → Option (List Nat)) : Prop where
  seen_b : seen b = some 0
  zero_b : ∀ x, seen x = some 0 → x = b
  level_le : ∀ x l, seen x = some l → l ≤ level
  mem_nodes : ∀ x, (seen x).isSome → x ∈ g.nodes
  top_mem : ∀ x, seen x = some level ↔ x ∈ nextlevel
  pred_dom : ∀ x, (pred x).isSome ↔ (seen x).isSome
  pred_b : pred b = some []
  pred_props : ∀ x l ps, seen x = some l → pred x = some ps → 1 ≤ l →
    ps ≠ [] ∧ ∀ u ∈ ps, seen u = some (l - 1) ∧ x ∈ g.adj u
  complete : ∀ x l, seen x = some l → l < level → ∀ w ∈ g.adj x,
    ∃ lw, seen w = some lw ∧ lw ≤ l + 1

/-- What the finished BFS guarantees: `seen` assigns level 0 exactly to
`b`, every seen node's predecessors sit one level closer to `b` along
edges, and the adjacency of every seen node is fully expanded (so `seen`
levels are exactly the hop distances from `b`). -/
structure BfsFinal (g : Graph) (b : Nat)
    (seen : Nat → Option Nat) (pred : Nat → Option (List Nat)) : Prop where
  seen_b : seen b = some 0
  zero_b : ∀ x, seen x = some 0 → x = b
  mem_nodes : ∀ x, (seen x).isSome → x ∈ g.nodes
  pred_dom : ∀ x, (pred x).isSome ↔ (seen x).isSome
  pred_b : pred b = some []
  pred_props : ∀ x l ps, seen x = some l → pred x = some ps → 1 ≤ l →
    ps ≠ [] ∧ ∀ u ∈ ps, seen u = some (l - 1) ∧ x ∈ g.adj u
  complete : ∀ x l, seen x = some l → ∀ w ∈ g.adj x,
    ∃ lw, seen w = some lw ∧ lw ≤ l + 1

/-! Concrete fixtures used by witnesses and counterexamples. -/

/-- A packet destined for router 3. -/
def pk0 : packet := { src := 0, dst := 3, payload := 0 }

/-- A packet destined for router 3, arriving at port 0. -/
def pkA : packet := { src := 0, dst := 3, payload := 10 }

/-- A packet destined for router 3, arriving at port 1. -/
def pkB : packet := { src := 1, dst := 3, payload := 11 }

/-- First packet queued in an output FIFO. -/
def pkX : packet := { src := 0, dst := 2, payload := 20 }

/-- Second packet queued in an output FIFO. -/
def pkY : packet := { src := 0, dst := 2, payload := 21 }

/-- An idle boolean signal. -/
def sig0 : sigBool := { val := false, nxt := false }

/-- An empty port connected to channel 10. -/
def port0Ex : portInfo :=
  { fifo_in := [], fifo_out := [], fifo_in_event := sig0,
    fifo_out_event := sig0, channel := 10 }

/-- A port connected to channel 11 whose input FIFO holds one packet. -/
def port1Ex : portInfo :=
  { fifo_in := [pkA], fifo_out := [], fifo_in_event := sig0,
    fifo_out_event := sig0, channel := 11 }

/-- A small router state: address 0, `fifo_len` 2, ports 0 (ipcore) and 1. -/
def rEx : routerTLM :=
  { myaddress := 0, fifo_len := 2,
    ports_info := [(0, port0Ex), (1, port1Ex)],
    routingtable := [(3, [1]), (0, [0])] }

/-- A router state with `fifo_len` 1 whose two input FIFOs each hold one
packet destined for router 3, both routed through port 1. -/
def rC2 : routerTLM :=
  { myaddress := 0, fifo_len := 1,
    ports_info := [(0, { port0Ex with fifo_in := [pkA] }),
                   (1, { port1Ex with fifo_in := [pkB] })],
    routingtable := [(3, [1])] }

/-- A port whose output FIFO holds two packets. -/
def portC3 : portInfo :=
  { port1Ex with fifo_in := [], fifo_out := [pkX, pkY] }

/-- A router state whose port 1 output FIFO holds two packets. -/
def rC3 : routerTLM :=
  { myaddress := 0, fifo_len := 4,
    ports_info := [(1, portC3)],
    routingtable := [] }

/-- The state of `rEx` after receiving `pk0` on port 1. -/
def rExAfter : routerTLM :=
  rEx.setPort 1
    { port1Ex with fifo_in := port1Ex.fifo_in ++ [pk0],
                   fifo_in_event := { port1Ex.fifo_in_event with nxt := true } }

/-- A channel environment whose `recv` always accepts. -/
def chanOkF : Nat → packet → noc_tlm_errcodes := fun _ _ => .no_error

/-- A channel environment whose `recv` always reports a full FIFO. -/
def chanFullF : Nat → packet → noc_tlm_errcodes := fun _ _ => .full_fifo

/-- Router addresses of a three-router graph. -/
def addrsEx : List Nat := [0, 1, 2]

/-- Boolean check of the FIFO bound of claim C2 for both directions. -/
def fifo_bounded_b (r : routerTLM) : Bool :=
  r.ports_info.all (fun pr =>
    decide (pr.2.fifo_in.length ≤ r.fifo_len) &&
    decide (pr.2.fifo_out.length ≤ r.fifo_len))

/-- The 2-by-2 mesh of the spec's end-to-end scenario: a square
0-1, 0-2, 1-3, 2-3. From 0 to 3 there are two shortest paths with
different first hops; adjacency lists in NetworkX insertion order. -/
def gSquare : Graph :=
  { nodes := [0, 1, 2, 3],
    adjList := [(0, [1, 2]), (1, [0, 3]), (2, [0, 3]), (3, [1, 2])] }

/-- A 5-node graph where two shortest paths from 0 to 4 share their
first hop (1) and diverge afterwards: 0-1, 1-2, 1-3, 2-4, 3-4. -/
def gDiamond : Graph :=
  { nodes := [0, 1, 2, 3, 4],
    adjList := [(0, [1]), (1, [0, 2, 3]), (2, [1, 4]), (3, [1, 4]), (4, [2, 3])] }

/-! Helper lemmas about association lists. -/

theorem assocFind_mem {α : Type} {l : List (Nat × α)} {k : Nat} {v : α}
    (h : assocFind l k = some v) : (k, v) ∈ l := by
  induction l with
  | nil => simp [assocFind] at h
  | cons hd tl ih =>
    obtain ⟨k0, v0⟩ := hd
    by_cases hk : k = k0
    · subst hk
      simp [assocFind] at h
      subst h
      exact List.mem_cons_self _ _
    · simp [assocFind, hk] at h
      exact List.mem_cons_of_mem _ (ih h)

theorem assocFind_assocSet_self {α : Type} (l : List (Nat × α)) (k : Nat) (v : α) :
    assocFind (assocSet l k v) k = some v := by
  induction l with
  | nil => simp [assocSet, assocFind]
  | cons hd tl ih =>
    obtain ⟨k0, v0⟩ := hd
    by_cases hk : k = k0
    · subst hk
      simp [assocSet, assocFind]
    · simp [assocSet, assocFind, hk, ih]

theorem assocFind_assocSet_ne {α : Type} (l : List (Nat × α)) (k key : Nat) (v : α)
    (h : key ≠ k) : assocFind (assocSet l k v) key = assocFind l key := by
  induction l with
  | nil => simp [assocSet, assocFind, h]
  | cons hd tl ih =>
    obtain ⟨k0, v0⟩ := hd
    by_cases hk : k = k0
    · subst hk
      simp [assocSet, assocFind, h]
    · by_cases hkey : key = k0
      · simp [assocSet, assocFind, hk, hkey]
      · simp [assocSet, assocFind, hk, hkey, ih]

theorem mem_assocSet {α : Type} {l : List (Nat × α)} {k : Nat} {v : α} {pr : Nat × α}
    (h : pr ∈ assocSet l k v) : pr = (k, v) ∨ pr ∈ l := by
  induction l with
  | nil =>
    simp [assocSet] at h
    exact Or.inl h
  | cons hd tl ih =>
    obtain ⟨k0, v0⟩ := hd
    by_cases hk : k = k0
    · subst hk
      simp [assocSet] at h
      rcases h with h | h
      · exact Or.inl (by simp [h])
      · exact Or.inr (List.mem_cons_of_mem _ h)
    · simp [assocSet, hk] at h
      rcases h with h | h
      · exact Or.inr (by simp [h])
      · rcases ih h with h1 | h1
        · exact Or.inl h1
        · exact Or.inr (List.mem_cons_of_mem _ h1)

theorem assocSet_fresh {α : Type} {l : List (Nat × α)} {k : Nat} (v : α)
    (h : assocFind l k = none) : assocSet l k v = l ++ [(k, v)] := by
  induction l with
  | nil => simp [assocSet]
  | cons hd tl ih =>
    obtain ⟨k0, v0⟩ := hd
    by_cases hk : k = k0
    · simp [assocFind, hk] at h
    · simp [assocFind, hk] at h
      simp [assocSet, hk, ih h]

theorem assocFind_append_left {α : Type} {l m : List (Nat × α)} {k : Nat} {v : α}
    (h : assocFind l k = some v) : assocFind (l ++ m) k = some v := by
  induction l with
  | nil => simp [assocFind] at h
  | cons hd tl ih =>
    obtain ⟨k0, v0⟩ := hd
    by_cases hk : k = k0
    · simp [assocFind, hk] at h
      simp [assocFind, hk, h]
    · simp [assocFind, hk] at h
      simp [assocFind, hk, ih h]

theorem assocFind_append_right {α : Type} {l m : List (Nat × α)} {k : Nat}
    (h : assocFind l k = none) : assocFind (l ++ m) k = assocFind m k := by
  induction l with
  | nil => simp [assocFind]
  | cons hd tl ih =>
    obtain ⟨k0, v0⟩ := hd
    by_cases hk : k = k0
    · simp [assocFind, hk] at h
    · simp [assocFind, hk] at h
      simp [assocFind, hk, ih h]

theorem find?_eq_self_of_mem {l : List Nat} {a : Nat} (h : a ∈ l) :
    l.find? (fun x => x = a) = some a := by
  induction l with
  | nil => simp at h
  | cons hd tl ih =>
    by_cases hk : hd = a
    · subst hk
      simp [List.find?]
    · simp [List.find?, hk]
      rcases List.mem_cons.1 h with h1 | h1
      · exact absurd h1.symm hk
      · exact ih h1

theorem find?_eq_none_of_not_mem {l : List Nat} {a : Nat} (h : a ∉ l) :
    l.find? (fun x => x = a) = none := by
  rw [List.find?_eq_none]
  intro x hx
  simp only [decide_eq_true_eq]
  intro hxa
  exact h (hxa ▸ hx)

theorem foldl_assocSet_map {α : Type} (f : Nat → α) :
    ∀ (ds : List Nat) (t : List (Nat × α)),
      ds.Nodup → (∀ d ∈ ds, assocFind t d = none) →
      ds.foldl (fun acc d => assocSet acc d (f d)) t = t ++ ds.map (fun d => (d, f d))
  | [], t, _, _ => by simp
  | hd :: tl, t, hnodup, hfresh => by
    simp only [List.foldl_cons, List.map_cons]
    rw [assocSet_fresh (f hd) (hfresh hd (List.mem_cons_self _ _))]
    have hfr : ∀ d ∈ tl, assocFind (t ++ [(hd, f hd)]) d = none := by
      intro d hdm
      have hne : d ≠ hd := by
        intro he
        exact (List.nodup_cons.1 hnodup).1 (he ▸ hdm)
      rw [assocFind_append_right (hfresh d (List.mem_cons_of_mem _ hdm))]
      simp [assocFind, hne]
    rw [foldl_assocSet_map f tl (t ++ [(hd, f hd)]) (List.nodup_cons.1 hnodup).2 hfr]
    simp

theorem fifo_in_bounded_setPort {r : routerTLM} {a : Nat} {d : portInfo}
    (hb : fifo_in_bounded r) (hd : d.fifo_in.length ≤ r.fifo_len) :
    fifo_in_bounded (r.setPort a d) := by
  intro pr hpr
  rcases mem_assocSet hpr with h | h
  · rw [h]
    exact hd
  · exact hb pr h

/-- C10: the ipcore adapter's `recv` returns `no_error` unconditionally,
performs no capacity check, and each call overwrites the incoming
signal's pending value with the received packet (leaving the committed
value untouched); a second `recv` before the signal commits replaces the
first packet's pending value. -/
theorem ipcore_recv_always_accepts (s : ipTLM) (p1 p2 : packet) :
    (basic_ipcore_recv s p1).1 = noc_tlm_errcodes.no_error ∧
    ((basic_ipcore_recv s p1).2).incoming_packet.nxt = p1 ∧
    ((basic_ipcore_recv s p1).2).incoming_packet.val = s.incoming_packet.val ∧
    ((basic_ipcore_recv (basic_ipcore_recv s p1).2 p2).2).incoming_packet.nxt = p2 :=
  ⟨rfl, rfl, rfl, rfl⟩

/-- C6: the routing table built by the `basic_router_tlm` constructor
always contains the self-route: the entry for the router's own address
exists, equals `[own address]`, and so its preferred (index-0) next hop
is the router's own address, which is the key of the local ipcore port. -/
theorem router_self_route (g : Graph) (i : Nat) :
    assocFind (mk_routingtable g i) i = some [i] ∧
    (assocFind (mk_routingtable g i) i).bind List.head? = some i := by
  have h : assocFind (mk_routingtable g i) i = some [i] := by
    unfold mk_routingtable
    exact assocFind_assocSet_self _ _ _
  exact ⟨h, by rw [h]; rfl⟩

/-- C9: the routing-table build is deterministic: `update_routes_info`
clears the previous table, so two runs from any prior table states give
identical tables, a rerun leaves the table unchanged, and on a graph
with distinct nodes the resulting table is exactly one entry per other
router, in `router_list` order. -/
theorem routes_info_build_deterministic (g : Graph) (i : Nat)
    (t1 t2 : List (Nat × List RouteEntry)) :
    update_routes_info g i t1 = update_routes_info g i t2 ∧
    update_routes_info g i (update_routes_info g i t1) = update_routes_info g i t1 ∧
    (g.nodes.Nodup →
      update_routes_info g i t1 =
        (g.nodes.filter (fun d => d ≠ i)).map (fun d => (d, buildRouteList g i d))) := by
  refine ⟨rfl, rfl, fun hnd => ?_⟩
  unfold update_routes_info
  exact foldl_assocSet_map _ _ _ (hnd.filter _) (fun d _ => rfl)

/-- Witness for C9 on the 2-by-2 mesh. -/
theorem routes_info_build_deterministic_witness :
    gSquare.nodes.Nodup ∧
    update_routes_info gSquare 0 [] =
      (gSquare.nodes.filter (fun d => d ≠ 0)).map (fun d => (d, buildRouteList gSquare 0 d)) :=
  ⟨by decide, (routes_info_build_deterministic gSquare 0 [] []).2.2 (by decide)⟩

/-- C4: for a `recv` whose `src` resolves to a known port, the return
code is `full_fifo` exactly when that port's input FIFO already holds
`fifo_len` packets (the router state is then returned unchanged); in
every other case the packet is appended at the back of the input FIFO,
the input signal's pending value is set, and `no_error` is returned. -/
theorem recv_full_fifo_iff (r : routerTLM) (src : srcArg) (pkt : packet)
    (a : Nat) (d : portInfo)
    (hres : resolve_recv_src r.myaddress src = resolveResult.ok a)
    (hport : assocFind r.ports_info a = some d) :
    (basic_router_recv r src pkt = Except.ok (noc_tlm_errcodes.full_fifo, r) ↔
       d.fifo_in.length = r.fifo_len) ∧
    (d.fifo_in.length ≠ r.fifo_len →
       basic_router_recv r src pkt = Except.ok (noc_tlm_errcodes.no_error,
         r.setPort a { d with fifo_in := d.fifo_in ++ [pkt],
                              fifo_in_event := { d.fifo_in_event with nxt := true } })) := by
  by_cases h : d.fifo_in.length = r.fifo_len
  · constructor
    · simp [basic_router_recv, hres, hport, h]
    · intro hne
      exact absurd h hne
  · constructor
    · simp [basic_router_recv, hres, hport, h]
    · intro _
      simp [basic_router_recv, hres, hport, h]

/-- Witness for C4: on `rEx`, port 1 holds one packet and `fifo_len` is
2, so a `recv` from address 1 appends the packet and reports `no_error`. -/
theorem recv_full_fifo_iff_witness :
    resolve_recv_src rEx.myaddress (srcArg.addr 1) = resolveResult.ok 1 ∧
    assocFind rEx.ports_info 1 = some port1Ex ∧
    ((basic_router_recv rEx (srcArg.addr 1) pk0 =
        Except.ok (noc_tlm_errcodes.full_fifo, rEx) ↔
        port1Ex.fifo_in.length = rEx.fifo_len) ∧
     (port1Ex.fifo_in.length ≠ rEx.fifo_len →
        basic_router_recv rEx (srcArg.addr 1) pk0 = Except.ok (noc_tlm_errcodes.no_error,
          rEx.setPort 1 { port1Ex with
                          fifo_in := port1Ex.fifo_in ++ [pk0],
                          fifo_in_event := { port1Ex.fifo_in_event with nxt := true } }))) :=
  ⟨by decide, by decide,
   recv_full_fifo_iff rEx (srcArg.addr 1) pk0 1 port1Ex (by decide) (by decide)⟩

/-- Counterexample to C7: on `rEx` (known ports 0 and 1), a `recv` whose
`src` is the resolvable address 7 — not a known port — raises `KeyError`
instead of returning `tlm_badcall_recv`. -/
theorem recv_unknown_port_raises_cex :
    basic_router_recv rEx (srcArg.addr 7) pk0 = Except.error (pyerror.keyError 7) ∧
    basic_router_recv rEx (srcArg.addr 7) pk0 ≠
      Except.ok (noc_tlm_errcodes.tlm_badcall_recv, rEx) := by decide

/-- C7 as amended: `recv` returns `tlm_badcall_recv` (with the router
unchanged) exactly when the type of `src` cannot be resolved to an
address at all; an address that resolves but is not a known port raises
`KeyError`, and a channel that does not contain this router raises
`ValueError` — neither returns `tlm_badcall_recv`. -/
theorem recv_badcall_characterization (r : routerTLM) (src : srcArg) (pkt : packet) :
    (basic_router_recv r src pkt = Except.ok (noc_tlm_errcodes.tlm_badcall_recv, r) ↔
       resolve_recv_src r.myaddress src = resolveResult.badcall) ∧
    (∀ a, resolve_recv_src r.myaddress src = resolveResult.ok a →
       assocFind r.ports_info a = none →
       basic_router_recv r src pkt = Except.error (pyerror.keyError a)) ∧
    (∀ e, resolve_recv_src r.myaddress src = resolveResult.exc e →
       basic_router_recv r src pkt = Except.error e) := by
  refine ⟨?_, ?_, ?_⟩
  · cases hres : resolve_recv_src r.myaddress src with
    | ok a =>
      cases hport : assocFind r.ports_info a with
      | none => simp [basic_router_recv, hres, hport]
      | some d =>
        by_cases h : d.fifo_in.length = r.fifo_len
        · simp [basic_router_recv, hres, hport, h]
        · simp [basic_router_recv, hres, hport, h]
    | badcall => simp [basic_router_recv, hres]
    | exc e => simp [basic_router_recv, hres]
  · intro a hres hport
    simp [basic_router_recv, hres, hport]
  · intro e hres
    simp [basic_router_recv, hres]

/-- Witness for the amended C7: address 5 resolves but is no port of
`rEx`, so `recv` raises `KeyError 5`; an unresolvable `src` object is
rejected with `tlm_badcall_recv` and the state is unchanged. -/
theorem recv_badcall_characterization_witness :
    resolve_recv_src rEx.myaddress (srcArg.addr 5) = resolveResult.ok 5 ∧
    assocFind rEx.ports_info 5 = none ∧
    basic_router_recv rEx (srcArg.addr 5) pk0 = Except.error (pyerror.keyError 5) ∧
    basic_router_recv rEx srcArg.other pk0 =
      Except.ok (noc_tlm_errcodes.tlm_badcall_recv, rEx) :=
  ⟨by decide, by decide,
   (recv_badcall_characterization rEx (srcArg.addr 5) pk0).2.1 5 (by decide) (by decide),
   (recv_badcall_characterization rEx srcArg.other pk0).1.mpr (by decide)⟩

/-- Counterexample to C8: with routers 0, 1, 2 in the graph but only
ports 0 and 1 on `rEx`, a `send` to address 2 resolves to an existing
router that is not a port and raises `KeyError` instead of returning
`tlm_badcall_send`. -/
theorem send_known_router_not_port_raises_cex :
    basic_router_send rEx addrsEx chanOkF (destArg.addr 2) pk0 =
      Except.error (pyerror.keyError 2) ∧
    basic_router_send rEx addrsEx chanOkF (destArg.addr 2) pk0 ≠
      Except.ok (noc_tlm_errcodes.tlm_badcall_send, []) := by decide

/-- C8 as amended: `send` with a channel `dest` invokes exactly that
channel's `recv` with the same packet and returns its code unchanged; an
address matching no router of the graph, or a `dest` of unresolvable
type, returns `tlm_badcall_send` without invoking any `recv`; an address
or router reference that resolves to a router that is not among this
router's ports raises `KeyError` (no `recv` invoked); an address or
router reference that is a port invokes that port's channel `recv`. -/
theorem send_characterization (r : routerTLM) (addrs : List Nat)
    (f : Nat → packet → noc_tlm_errcodes) (pkt : packet) :
    (∀ cid, basic_router_send r addrs f (destArg.chan cid) pkt =
       Except.ok (f cid pkt, [(cid, pkt)])) ∧
    (basic_router_send r addrs f destArg.other pkt =
       Except.ok (noc_tlm_errcodes.tlm_badcall_send, [])) ∧
    (∀ a, a ∉ addrs → basic_router_send r addrs f (destArg.addr a) pkt =
       Except.ok (noc_tlm_errcodes.tlm_badcall_send, [])) ∧
    (∀ a d, a ∈ addrs → assocFind r.ports_info a = some d →
       basic_router_send r addrs f (destArg.addr a) pkt =
         Except.ok (f d.channel pkt, [(d.channel, pkt)])) ∧
    (∀ a, a ∈ addrs → assocFind r.ports_info a = none →
       basic_router_send r addrs f (destArg.addr a) pkt =
         Except.error (pyerror.keyError a)) ∧
    (∀ a d, assocFind r.ports_info a = some d →
       basic_router_send r addrs f (destArg.rtr a) pkt =
         Except.ok (f d.channel pkt, [(d.channel, pkt)])) ∧
    (∀ a, assocFind r.ports_info a = none →
       basic_router_send r addrs f (destArg.rtr a) pkt =
         Except.error (pyerror.keyError a)) := by
  refine ⟨?_, ?_, ?_, ?_, ?_, ?_, ?_⟩
  · intro cid
    rfl
  · rfl
  · intro a ha
    simp [basic_router_send, find?_eq_none_of_not_mem ha]
  · intro a d ha hport
    simp [basic_router_send, find?_eq_self_of_mem ha, hport]
  · intro a ha hport
    simp [basic_router_send, find?_eq_self_of_mem ha, hport]
  · intro a d hport
    simp [basic_router_send, hport]
  · intro a hport
    simp [basic_router_send, hport]

/-- Witness for the amended C8: on `rEx` with routers 0, 1, 2, a `send`
to the unknown address 9 is rejected with `tlm_badcall_send`, and a
`send` to address 1 (a port) invokes channel 11's `recv` with the same
packet and passes its code through. -/
theorem send_characterization_witness :
    (9 ∉ addrsEx) ∧ (1 ∈ addrsEx) ∧
    assocFind rEx.ports_info 1 = some port1Ex ∧
    basic_router_send rEx addrsEx chanOkF (destArg.addr 9) pk0 =
      Except.ok (noc_tlm_errcodes.tlm_badcall_send, []) ∧
    basic_router_send rEx addrsEx chanOkF (destArg.addr 1) pk0 =
      Except.ok (chanOkF port1Ex.channel pk0, [(port1Ex.channel, pk0)]) :=
  ⟨by decide, by decide, by decide,
   (send_characterization rEx addrsEx chanOkF pk0).2.2.1 9 (by decide),
   (send_characterization rEx addrsEx chanOkF pk0).2.2.2.1 1 port1Ex (by decide) (by decide)⟩

/-- Counterexample to C3: on `rC3`, port 1's output FIFO is `[pkX, pkY]`
and the downstream channel reports `full_fifo`. The flush body pops
`pkX`, fails to send it, and re-queues it at the back: the resulting
FIFO is `[pkY, pkX]`, so the failed packet is not at index 0 and is not
the next packet popped. -/
theorem flush_pushback_cex :
    (flush_fifo_out_step rC3 [] chanFullF 1).map
      (fun r => (assocFind r.ports_info 1).map portInfo.fifo_out) =
      Except.ok (some [pkY, pkX]) ∧
    [pkY, pkX].head? ≠ some pkX := by decide

/-- C3 as amended: when the flush body pops a packet and the send
returns a code other than `no_error`, the same packet is appended at the
back of the same output FIFO (so it is retried only after the packets
queued behind it), and no packet is discarded: the FIFO keeps exactly
the same packets with the same multiplicities. -/
theorem flush_send_failure_requeues_back (r : routerTLM) (addrs : List Nat)
    (f : Nat → packet → noc_tlm_errcodes) (p : Nat) (d : portInfo)
    (pkt : packet) (rest : List packet)
    (hport : assocFind r.ports_info p = some d)
    (hfifo : d.fifo_out = pkt :: rest)
    (hfail : f d.channel pkt ≠ noc_tlm_errcodes.no_error) :
    flush_fifo_out_step r addrs f p =
      Except.ok (r.setPort p { d with fifo_out := rest ++ [pkt] }) ∧
    ∀ q : packet, (rest ++ [pkt]).count q = d.fifo_out.count q := by
  constructor
  · simp only [flush_fifo_out_step, hport, hfifo, basic_router_send]
    simp [hfail]
  · intro q
    rw [hfifo]
    simp [List.count_append, List.count_cons]

/-- Witness for the amended C3 on `rC3`: the popped `pkX` reappears at
the back of port 1's output FIFO and the packet counts are unchanged. -/
theorem flush_send_failure_requeues_back_witness :
    assocFind rC3.ports_info 1 = some portC3 ∧
    portC3.fifo_out = pkX :: [pkY] ∧
    chanFullF portC3.channel pkX ≠ noc_tlm_errcodes.no_error ∧
    flush_fifo_out_step rC3 [] chanFullF 1 =
      Except.ok (rC3.setPort 1 { portC3 with fifo_out := [pkY] ++ [pkX] }) ∧
    ([pkY] ++ [pkX]).count pkX = portC3.fifo_out.count pkX ∧
    ([pkY] ++ [pkX]).count pkY = portC3.fifo_out.count pkY :=
  ⟨by decide, by decide, by decide,
   (flush_send_failure_requeues_back rC3 [] chanFullF 1 portC3 pkX [pkY]
      (by decide) (by decide) (by decide)).1,
   (flush_send_failure_requeues_back rC3 [] chanFullF 1 portC3 pkX [pkY]
      (by decide) (by decide) (by decide)).2 pkX,
   (flush_send_failure_requeues_back rC3 [] chanFullF 1 portC3 pkX [pkY]
      (by decide) (by decide) (by decide)).2 pkY⟩

/-- Counterexample to C2: on `rC2` (`fifo_len` 1, both FIFO directions
within bound), routing the two queued input packets — both destined for
router 3, routed through port 1 — leaves port 1's output FIFO with 2
packets, exceeding `fifo_len`: the routing process appends to output
FIFOs without any capacity check. -/
theorem routing_overfills_output_cex :
    fifo_bounded_b rC2 = true ∧
    ((routing_loop_step rC2 0).bind (fun r1 => routing_loop_step r1 1)).map
      fifo_bounded_b = Except.ok false ∧
    rC2.fifo_len = 1 := by decide

/-- C2 as amended: the `fifo_len` bound is an invariant of the input
FIFOs only — it is preserved by `recv` (which checks capacity), by the
routing body (which only pops from input FIFOs) and by the flush body
(which does not touch input FIFOs). Output FIFOs obey no such bound (see
the counterexample). -/
theorem fifo_in_bound_invariant :
    (∀ (r : routerTLM) (src : srcArg) (pkt : packet) (c : noc_tlm_errcodes) (r2 : routerTLM),
       basic_router_recv r src pkt = Except.ok (c, r2) →
       fifo_in_bounded r → fifo_in_bounded r2) ∧
    (∀ (r : routerTLM) (p : Nat) (r2 : routerTLM),
       routing_loop_step r p = Except.ok r2 → fifo_in_bounded r → fifo_in_bounded r2) ∧
    (∀ (r : routerTLM) (addrs : List Nat) (f : Nat → packet → noc_tlm_errcodes)
       (p : Nat) (r2 : routerTLM),
       flush_fifo_out_step r addrs f p = Except.ok r2 →
       fifo_in_bounded r → fifo_in_bounded r2) := by
  refine ⟨?_, ?_, ?_⟩
  · intro r src pkt c r2 hstep hb
    unfold basic_router_recv at hstep
    cases hres : resolve_recv_src r.myaddress src with
    | badcall =>
      rw [hres] at hstep
      simp at hstep
      rw [← hstep.2]
      exact hb
    | exc e =>
      rw [hres] at hstep
      simp at hstep
    | ok a =>
      rw [hres] at hstep
      dsimp only [] at hstep
      cases hport : assocFind r.ports_info a with
      | none =>
        rw [hport] at hstep
        simp at hstep
      | some d =>
        rw [hport] at hstep
        dsimp only [] at hstep
        by_cases hlen : d.fifo_in.length = r.fifo_len
        · rw [if_pos hlen] at hstep
          simp at hstep
          rw [← hstep.2]
          exact hb
        · rw [if_neg hlen] at hstep
          simp at hstep
          rw [← hstep.2]
          apply fifo_in_bounded_setPort hb
          have hle : d.fifo_in.length ≤ r.fifo_len := hb _ (assocFind_mem hport)
          simp only [List.length_append, List.length_cons, List.length_nil]
          omega
  · intro r p r2 hstep hb
    unfold routing_loop_step at hstep
    cases hport : assocFind r.ports_info p with
    | none =>
      rw [hport] at hstep
      simp at hstep
    | some d =>
      rw [hport] at hstep
      dsimp only [] at hstep
      cases hfifo : d.fifo_in with
      | nil =>
        rw [hfifo] at hstep
        simp at hstep
        rw [← hstep]
        exact hb
      | cons pkt rest =>
        rw [hfifo] at hstep
        dsimp only [] at hstep
        cases hroute : assocFind r.routingtable pkt.dst with
        | none =>
          rw [hroute] at hstep
          simp at hstep
        | some routes =>
          rw [hroute] at hstep
          dsimp only [] at hstep
          cases hhd : routes.head? with
          | none =>
            rw [hhd] at hstep
            simp at hstep
          | some nextaddr =>
            rw [hhd] at hstep
            dsimp only [] at hstep
            have hb1 : fifo_in_bounded (r.setPort p
                { d with fifo_in := rest,
                         fifo_in_event := { d.fifo_in_event with nxt := false } }) := by
              apply fifo_in_bounded_setPort hb
              have hle := hb _ (assocFind_mem hport)
              rw [hfifo] at hle
              simp only [List.length_cons] at hle
              simp only []
              omega
            cases hport2 : assocFind (r.setPort p
                { d with fifo_in := rest,
                         fifo_in_event := { d.fifo_in_event with nxt := false } }).ports_info
                nextaddr with
            | none =>
              rw [hport2] at hstep
              simp at hstep
            | some nd =>
              rw [hport2] at hstep
              simp at hstep
              rw [← hstep]
              apply fifo_in_bounded_setPort hb1
              exact hb1 _ (assocFind_mem hport2)
  · intro r addrs f p r2 hstep hb
    unfold flush_fifo_out_step at hstep
    cases hport : assocFind r.ports_info p with
    | none =>
      rw [hport] at hstep
      simp at hstep
    | some d =>
      rw [hport] at hstep
      dsimp only [] at hstep
      cases hfifo : d.fifo_out with
      | nil =>
        rw [hfifo] at hstep
        simp at hstep
        rw [← hstep]
        exact hb
      | cons pkt rest =>
        rw [hfifo] at hstep
        dsimp only [] at hstep
        simp only [basic_router_send] at hstep
        have hle : d.fifo_in.length ≤ r.fifo_len := hb _ (assocFind_mem hport)
        by_cases hret : f d.channel pkt = noc_tlm_errcodes.no_error
        · rw [if_pos hret] at hstep
          simp at hstep
          rw [← hstep]
          exact fifo_in_bounded_setPort hb hle
        · rw [if_neg hret] at hstep
          simp at hstep
          rw [← hstep]
          exact fifo_in_bounded_setPort hb hle

/-- Witness for the amended C2: a `recv` on `rEx` keeps every input FIFO
within `fifo_len`. -/
theorem fifo_in_bound_invariant_witness :
    fifo_in_bounded rEx ∧
    basic_router_recv rEx (srcArg.addr 1) pk0 =
      Except.ok (noc_tlm_errcodes.no_error, rExAfter) ∧
    fifo_in_bounded rExAfter :=
  ⟨by decide, by decide,
   fifo_in_bound_invariant.1 rEx (srcArg.addr 1) pk0 noc_tlm_errcodes.no_error rExAfter
     (by decide) (by decide)⟩

theorem addRoute_grouping_step (done : List (List Nat)) (entries : List RouteEntry)
    (p : List Nat) (hp : (routeNext p).isSome)
    (h1 : (entries.map RouteEntry.next).Nodup)
    (h2 : ∀ e ∈ entries, e.paths = done.filter (fun q => routeNext q = some e.next))
    (h3 : ∀ q ∈ done, ∃ e ∈ entries, routeNext q = some e.next) :
    ((addRoute entries p).map RouteEntry.next).Nodup ∧
    (∀ e ∈ addRoute entries p,
       e.paths = (done ++ [p]).filter (fun q => routeNext q = some e.next)) ∧
    (∀ q ∈ done ++ [p], ∃ e ∈ addRoute entries p, routeNext q = some e.next) := by
  obtain ⟨x, hx⟩ := Option.isSome_iff_exists.mp hp
  by_cases hany : entries.any (fun e => decide (routeNext p = some e.next))
  · rw [addRoute, if_pos hany]
    refine ⟨?_, ?_, ?_⟩
    · rw [List.map_map]
      have : (RouteEntry.next ∘ fun e =>
          if routeNext p = some e.next then { e with paths := e.paths ++ [p] } else e) =
          RouteEntry.next := by
        funext e
        by_cases hc : routeNext p = some e.next
        · simp [hc]
        · simp [hc]
      rw [this]
      exact h1
    · intro e2 he2
      obtain ⟨e, he, hfe⟩ := List.mem_map.mp he2
      by_cases hc : routeNext p = some e.next
      · rw [if_pos hc] at hfe
        rw [← hfe]
        simp only [List.filter_append]
        rw [← h2 e he]
        simp [hc]
      · rw [if_neg hc] at hfe
        rw [← hfe]
        simp only [List.filter_append]
        rw [← h2 e he]
        simp [hc]
    · intro q hq
      rcases List.mem_append.mp hq with hq | hq
      · obtain ⟨e, he, hne⟩ := h3 q hq
        refine ⟨if routeNext p = some e.next then { e with paths := e.paths ++ [p] } else e,
          List.mem_map_of_mem _ he, ?_⟩
        by_cases hc : routeNext p = some e.next
        · simp [hc, hne]
        · simp [hc, hne]
      · rw [List.mem_singleton.mp hq]
        obtain ⟨e, he, hne⟩ := List.any_eq_true.mp hany
        refine ⟨if routeNext p = some e.next then { e with paths := e.paths ++ [p] } else e,
          List.mem_map_of_mem _ he, ?_⟩
        simp only [decide_eq_true_eq] at hne
        simp [hne]
  · rw [addRoute, if_neg hany]
    have hnotin : ∀ e ∈ entries, x ≠ e.next := by
      intro e he hxe
      apply hany
      refine List.any_eq_true.mpr ⟨e, he, ?_⟩
      simp [hx, hxe]
    refine ⟨?_, ?_, ?_⟩
    · rw [List.map_append]
      simp only [List.map_cons, List.map_nil]
      rw [List.nodup_append]
      refine ⟨h1, List.nodup_singleton _, ?_⟩
      intro y hy hy2
      simp only [hx, Option.getD_some, List.mem_singleton] at hy2
      obtain ⟨e, he, hye⟩ := List.mem_map.mp hy
      exact hnotin e he (by rw [← hy2, ← hye])
    · intro e2 he2
      rcases List.mem_append.mp he2 with he2 | he2
      · rw [h2 e2 he2]
        simp only [List.filter_append]
        have : routeNext p ≠ some e2.next := by
          rw [hx]
          intro hc
          exact hnotin e2 he2 (Option.some.injEq _ _ ▸ hc)
        simp [this]
      · rw [List.mem_singleton.mp he2]
        simp only [hx, Option.getD_some, List.filter_append]
        have hdone : done.filter (fun q => decide (routeNext q = some x)) = [] := by
          rw [List.filter_eq_nil_iff]
          intro q hq hqx
          simp only [decide_eq_true_eq] at hqx
          obtain ⟨e, he, hne⟩ := h3 q hq
          rw [hqx] at hne
          exact hnotin e he (Option.some.injEq _ _ ▸ hne)
        rw [hdone]
        simp [hx]
    · intro q hq
      rcases List.mem_append.mp hq with hq | hq
      · obtain ⟨e, he, hne⟩ := h3 q hq
        exact ⟨e, List.mem_append_left _ he, hne⟩
      · rw [List.mem_singleton.mp hq]
        refine ⟨{ next := (routeNext p).getD 0, paths := [p] },
          List.mem_append_right _ (List.mem_singleton_self _), ?_⟩
        simp [hx]

theorem foldl_addRoute_grouping :
    ∀ (rs done : List (List Nat)) (entries : List RouteEntry),
      (∀ p ∈ rs, (routeNext p).isSome) →
      (entries.map RouteEntry.next).Nodup →
      (∀ e ∈ entries, e.paths = done.filter (fun q => routeNext q = some e.next)) →
      (∀ q ∈ done, ∃ e ∈ entries, routeNext q = some e.next) →
      ((rs.foldl addRoute entries).map RouteEntry.next).Nodup ∧
      (∀ e ∈ rs.foldl addRoute entries,
         e.paths = (done ++ rs).filter (fun q => routeNext q = some e.next)) ∧
      (∀ q ∈ done ++ rs, ∃ e ∈ rs.foldl addRoute entries, routeNext q = some e.next)
  | [], done, entries, _, h1, h2, h3 => by
    simpa using ⟨h1, h2, h3⟩
  | p :: rest, done, entries, hs, h1, h2, h3 => by
    obtain ⟨g1, g2, g3⟩ := addRoute_grouping_step done entries p
      (hs p (List.mem_cons_self _ _)) h1 h2 h3
    have hres := foldl_addRoute_grouping rest (done ++ [p]) (addRoute entries p)
      (fun q hq => hs q (List.mem_cons_of_mem _ hq)) g1 g2 g3
    simpa [List.append_assoc] using hres

theorem addRoute_ne_nil (entries : List RouteEntry) (p : List Nat) :
    addRoute entries p ≠ [] := by
  rw [addRoute]
  by_cases hany : entries.any (fun e => decide (routeNext p = some e.next))
  · rw [if_pos hany]
    intro hc
    obtain ⟨e, he, -⟩ := List.any_eq_true.mp hany
    rw [List.map_eq_nil_iff] at hc
    rw [hc] at he
    exact List.not_mem_nil e he
  · rw [if_neg hany]
    simp

theorem addRoute_head_next (entries : List RouteEntry) (p : List Nat)
    (hne : entries ≠ []) :
    (addRoute entries p).head?.map RouteEntry.next = entries.head?.map RouteEntry.next := by
  obtain ⟨e0, tl, rfl⟩ := List.exists_cons_of_ne_nil hne
  rw [addRoute]
  by_cases hany : (e0 :: tl).any (fun e => decide (routeNext p = some e.next))
  · rw [if_pos hany]
    simp only [List.map_cons, List.head?_cons, Option.map_some]
    by_cases hc : routeNext p = some e0.next
    · simp [hc]
    · simp [hc]
  · rw [if_neg hany]
    simp

theorem foldl_addRoute_head :
    ∀ (rs : List (List Nat)) (entries : List RouteEntry), entries ≠ [] →
      (rs.foldl addRoute entries).head?.map RouteEntry.next =
        entries.head?.map RouteEntry.next ∧ rs.foldl addRoute entries ≠ []
  | [], entries, hne => ⟨rfl, hne⟩
  | p :: rest, entries, hne => by
    have hstep := addRoute_head_next entries p hne
    have hres := foldl_addRoute_head rest (addRoute entries p) (addRoute_ne_nil entries p)
    simp only [List.foldl_cons]
    exact ⟨hres.1.trans hstep, hres.2⟩

theorem buildRouteList_head (g : Graph) (src dest : Nat)
    (hs : ∀ p ∈ all_shortest_paths g src dest, (routeNext p).isSome) :
    (buildRouteList g src dest).head?.map RouteEntry.next =
      (all_shortest_paths g src dest).head?.bind routeNext := by
  unfold buildRouteList
  cases hrs : all_shortest_paths g src dest with
  | nil => rfl
  | cons r0 rest =>
    have h0 : (routeNext r0).isSome := by
      apply hs
      rw [hrs]
      exact List.mem_cons_self _ _
    obtain ⟨x, hx⟩ := Option.isSome_iff_exists.mp h0
    have hinit : addRoute [] r0 = [{ next := (routeNext r0).getD 0, paths := [r0] }] := by
      rw [addRoute]
      simp
    rw [List.foldl_cons, hinit]
    have := (foldl_addRoute_head rest [{ next := (routeNext r0).getD 0, paths := [r0] }]
      (by simp)).1
    rw [this]
    simp [hx]

theorem buildRouteList_grouping (g : Graph) (src dest : Nat)
    (hs : ∀ p ∈ all_shortest_paths g src dest, (routeNext p).isSome) :
    ((buildRouteList g src dest).map RouteEntry.next).Nodup ∧
    (∀ e ∈ buildRouteList g src dest,
       e.paths = (all_shortest_paths g src dest).filter (fun q => routeNext q = some e.next)) ∧
    (∀ q ∈ all_shortest_paths g src dest,
       ∃ e ∈ buildRouteList g src dest, routeNext q = some e.next) := by
  have h := foldl_addRoute_grouping (all_shortest_paths g src dest) [] [] hs
    (by simp) (by simp) (by simp)
  simpa using h

theorem addRoute_nexts {entries : List RouteEntry} {p : List Nat} {x : Nat}
    (hx : routeNext p = some x) :
    (addRoute entries p).map RouteEntry.next =
      insertIfNew (entries.map RouteEntry.next) x := by
  rw [addRoute, insertIfNew]
  by_cases hany : entries.any (fun e => decide (routeNext p = some e.next))
  · rw [if_pos hany]
    have hxin : x ∈ entries.map RouteEntry.next := by
      obtain ⟨e, he, hne⟩ := List.any_eq_true.mp hany
      simp only [decide_eq_true_eq] at hne
      rw [hx] at hne
      injection hne with h2
      exact List.mem_map.mpr ⟨e, he, h2.symm⟩
    rw [if_pos hxin, List.map_map]
    have hcomp : (RouteEntry.next ∘ fun e =>
        if routeNext p = some e.next then { e with paths := e.paths ++ [p] } else e) =
        RouteEntry.next := by
      funext e
      by_cases hc : routeNext p = some e.next
      · simp [hc]
      · simp [hc]
    rw [hcomp]
  · rw [if_neg hany]
    have hxnot : x ∉ entries.map RouteEntry.next := by
      intro hmem
      obtain ⟨e, he, hne⟩ := List.mem_map.mp hmem
      apply hany
      exact List.any_eq_true.mpr ⟨e, he, by simp [hx, hne]⟩
    rw [if_neg hxnot]
    simp [hx]

theorem foldl_addRoute_nexts :
    ∀ (rs : List (List Nat)) (entries : List RouteEntry),
      (∀ p ∈ rs, (routeNext p).isSome) →
      (rs.foldl addRoute entries).map RouteEntry.next =
        (rs.filterMap routeNext).foldl insertIfNew (entries.map RouteEntry.next)
  | [], _, _ => rfl
  | p :: rest, entries, hs => by
    obtain ⟨x, hx⟩ := Option.isSome_iff_exists.mp (hs p (List.mem_cons_self _ _))
    have hfm : (p :: rest).filterMap routeNext = x :: rest.filterMap routeNext := by
      simp [List.filterMap_cons, hx]
    rw [List.foldl_cons,
      foldl_addRoute_nexts rest (addRoute entries p)
        (fun q hq => hs q (List.mem_cons_of_mem _ hq)),
      addRoute_nexts hx, hfm, List.foldl_cons]

theorem buildRouteList_nexts (g : Graph) (src dest : Nat)
    (hs : ∀ p ∈ all_shortest_paths g src dest, (routeNext p).isSome) :
    (buildRouteList g src dest).map RouteEntry.next =
      firstOccurrences ((all_shortest_paths g src dest).filterMap routeNext) := by
  unfold buildRouteList firstOccurrences
  exact foldl_addRoute_nexts _ [] hs

/-- C5: the grouping of shortest paths into `routes_info` entries: two
enumerated shortest paths lie in the same entry exactly when they have
the same second node (first hop); entries carry pairwise-distinct next
hops; each entry's `paths` list is the discovery-order sublist of the
enumeration sharing that first hop; the entries appear in discovery
order — the next-hop column is exactly the sequence of second nodes of
the enumerated paths in first-occurrence order — and in particular the
index-0 entry's next hop is the second node of the first-discovered
path. The hypothesis states that every enumerated path has a second
node, which holds for shortest paths between distinct routers. -/
theorem routes_grouping (g : Graph) (src dest : Nat)
    (hs : ∀ p ∈ all_shortest_paths g src dest, (routeNext p).isSome) :
    ((buildRouteList g src dest).map RouteEntry.next).Nodup ∧
    (∀ e ∈ buildRouteList g src dest,
       e.paths = (all_shortest_paths g src dest).filter (fun q => routeNext q = some e.next)) ∧
    (∀ p ∈ all_shortest_paths g src dest, ∃ e ∈ buildRouteList g src dest, p ∈ e.paths) ∧
    (∀ p q, p ∈ all_shortest_paths g src dest → q ∈ all_shortest_paths g src dest →
       ((∃ e ∈ buildRouteList g src dest, p ∈ e.paths ∧ q ∈ e.paths) ↔
         routeNext p = routeNext q)) ∧
    (buildRouteList g src dest).map RouteEntry.next =
      firstOccurrences ((all_shortest_paths g src dest).filterMap routeNext) ∧
    (buildRouteList g src dest).head?.map RouteEntry.next =
      (all_shortest_paths g src dest).head?.bind routeNext := by
  obtain ⟨h1, h2, h3⟩ := buildRouteList_grouping g src dest hs
  have hmem : ∀ p ∈ all_shortest_paths g src dest,
      ∃ e ∈ buildRouteList g src dest, p ∈ e.paths := by
    intro p hp
    obtain ⟨e, he, hpe⟩ := h3 p hp
    refine ⟨e, he, ?_⟩
    rw [h2 e he]
    rw [List.mem_filter]
    exact ⟨hp, by simp [hpe]⟩
  refine ⟨h1, h2, hmem, ?_, buildRouteList_nexts g src dest hs,
    buildRouteList_head g src dest hs⟩
  intro p q hp hq
  constructor
  · rintro ⟨e, he, hpe, hqe⟩
    rw [h2 e he, List.mem_filter] at hpe hqe
    have hp2 := hpe.2
    have hq2 := hqe.2
    simp only [decide_eq_true_eq] at hp2 hq2
    rw [hp2, hq2]
  · intro hpq
    obtain ⟨e, he, hpe⟩ := h3 p hp
    refine ⟨e, he, ?_, ?_⟩
    · rw [h2 e he, List.mem_filter]
      exact ⟨hp, by simp [hpe]⟩
    · rw [h2 e he, List.mem_filter]
      refine ⟨hq, by simp [← hpq, hpe]⟩

/-- Witness for C5 on the 2-by-2 mesh, source 0, destination 3: the two
shortest paths `[0,1,3]` and `[0,2,3]` have different first hops and land
in two distinct entries, in discovery order (next-hop column `[1, 2]`). -/
theorem routes_grouping_witness :
    (∀ p ∈ all_shortest_paths gSquare 0 3, (routeNext p).isSome) ∧
    ((buildRouteList gSquare 0 3).map RouteEntry.next).Nodup ∧
    (buildRouteList gSquare 0 3).map RouteEntry.next =
      firstOccurrences ((all_shortest_paths gSquare 0 3).filterMap routeNext) ∧
    (buildRouteList gSquare 0 3).head?.map RouteEntry.next =
      (all_shortest_paths gSquare 0 3).head?.bind routeNext :=
  ⟨by decide,
   (routes_grouping gSquare 0 3 (by decide)).1,
   (routes_grouping gSquare 0 3 (by decide)).2.2.2.2.1,
   (routes_grouping gSquare 0 3 (by decide)).2.2.2.2.2⟩

theorem adj_mem_total {g : Graph} (hwf : GraphWF g) {x y : Nat}
    (h : y ∈ g.adj x) : y ∈ g.nodes := by
  have hx : x ∈ g.nodes := by
    by_cases hfind : assocFind g.adjList x = none
    · rw [Graph.adj, hfind] at h
      simp at h
    · obtain ⟨l, hl⟩ := Option.ne_none_iff_exists.mp hfind
      exact hwf.adj_keys (x, l) (assocFind_mem hl.symm)
  exact hwf.adj_mem x hx y h

theorem adj_symm_total {g : Graph} (hwf : GraphWF g) {x y : Nat}
    (h : y ∈ g.adj x) : x ∈ g.adj y := by
  have hx : x ∈ g.nodes := by
    by_cases hfind : assocFind g.adjList x = none
    · rw [Graph.adj, hfind] at h
      simp at h
    · obtain ⟨l, hl⟩ := Option.ne_none_iff_exists.mp hfind
      exact hwf.adj_keys (x, l) (assocFind_mem hl.symm)
  exact hwf.adj_symm x hx y h

theorem visit_edge_seen_mono {L v : Nat} {st : bfsState} {w x : Nat} {l : Nat}
    (h : st.seen x = some l) : (bfs_visit_edge L v st w).seen x = some l := by
  unfold bfs_visit_edge
  cases hw : st.seen w with
  | none =>
    dsimp only
    unfold fnUpdate
    by_cases hx : x = w
    · rw [hx] at h
      rw [h] at hw
      cases hw
    · simp [hx, h]
  | some lw =>
    by_cases hl : lw = L
    · simp [hl, h]
    · simp [hl, h]

theorem visit_node_seen_mono {L : Nat} :
    ∀ (ws : List Nat) (v : Nat) (st : bfsState) (x l : Nat), st.seen x = some l →
      ((ws.foldl (bfs_visit_edge L v) st).seen x = some l)
  | [], _, _, _, _, h => h
  | w :: rest, v, st, x, l, h =>
    visit_node_seen_mono rest v (bfs_visit_edge L v st w) x l (visit_edge_seen_mono h)

theorem bfs_level_seen_mono (g : Graph) (L : Nat) :
    ∀ (tl : List Nat) (st : bfsState) (x l : Nat), st.seen x = some l →
      ((bfs_level g L tl st).seen x = some l)
  | [], _, _, _, h => h
  | v :: rest, st, x, l, h => by
    unfold bfs_level at *
    exact bfs_level_seen_mono g L rest (bfs_visit_node g L st v) x l
      (visit_node_seen_mono (g.adj v) v st x l h)

theorem visit_edge_seen_isSome {L v : Nat} {st : bfsState} (w : Nat) :
    ((bfs_visit_edge L v st w).seen w).isSome := by
  unfold bfs_visit_edge
  cases hw : st.seen w with
  | none =>
    dsimp only
    unfold fnUpdate
    simp
  | some lw =>
    by_cases hl : lw = L
    · simp [hl, hw]
    · simp [hl, hw]

theorem seen_isSome_mono_visit_node {L : Nat} (ws : List Nat) (v : Nat)
    (st : bfsState) (x : Nat) (h : (st.seen x).isSome) :
    ((ws.foldl (bfs_visit_edge L v) st).seen x).isSome := by
  obtain ⟨l, hl⟩ := Option.isSome_iff_exists.mp h
  exact Option.isSome_iff_exists.mpr ⟨l, visit_node_seen_mono ws v st x l hl⟩

theorem seen_isSome_mono_level {g : Graph} {L : Nat} (tl : List Nat)
    (st : bfsState) (x : Nat) (h : (st.seen x).isSome) :
    ((bfs_level g L tl st).seen x).isSome := by
  obtain ⟨l, hl⟩ := Option.isSome_iff_exists.mp h
  exact Option.isSome_iff_exists.mpr ⟨l, bfs_level_seen_mono g L tl st x l hl⟩

theorem fnUpdate_self {α : Type} (f : Nat → α) (k : Nat) (v : α) :
    fnUpdate f k v k = v := by
  simp [fnUpdate]

theorem fnUpdate_ne {α : Type} (f : Nat → α) {k x : Nat} (v : α) (h : x ≠ k) :
    fnUpdate f k v x = f x := by
  simp [fnUpdate, h]

theorem visit_edge_midinv {g : Graph} {b LV : Nat} {thislevel : List Nat}
    {v w : Nat} {st : bfsState}
    (hwf : GraphWF g) (hLV : 1 ≤ LV)
    (hv : st.seen v = some (LV - 1)) (hvn : v ∈ g.nodes) (hw : w ∈ g.adj v)
    (hinv : BfsMidInv g b LV thislevel st) :
    BfsMidInv g b LV thislevel (bfs_visit_edge LV v st w) := by
  have hLVne : LV ≠ LV - 1 := by omega
  unfold bfs_visit_edge
  cases hsw : st.seen w with
  | none =>
    dsimp only
    have hwb : w ≠ b := by
      intro he
      rw [he, hinv.seen_b] at hsw
      cases hsw
    have hwv : w ≠ v := by
      intro he
      rw [he, hv] at hsw
      cases hsw
    have hseq : ∀ x, x ≠ w → fnUpdate st.seen w (some LV) x = st.seen x :=
      fun x hx => fnUpdate_ne _ _ hx
    have hsw2 : fnUpdate st.seen w (some LV) w = some LV := fnUpdate_self _ _ _
    have hpeq : ∀ x, x ≠ w → fnUpdate st.pred w (some [v]) x = st.pred x :=
      fun x hx => fnUpdate_ne _ _ hx
    have hpw : fnUpdate st.pred w (some [v]) w = some [v] := fnUpdate_self _ _ _
    refine ⟨?_, ?_, ?_, ?_, ?_, ?_, ?_, ?_, ?_, ?_⟩ <;> (try dsimp only)
    · rw [hseq b (Ne.symm hwb)]
      exact hinv.seen_b
    · intro x hx
      by_cases hxw : x = w
      · rw [hxw, hsw2] at hx
        injection hx with hx2
        omega
      · rw [hseq x hxw] at hx
        exact hinv.zero_b x hx
    · intro x l hx
      by_cases hxw : x = w
      · rw [hxw, hsw2] at hx
        injection hx with hx2
        omega
      · rw [hseq x hxw] at hx
        exact hinv.level_le x l hx
    · intro x hx
      by_cases hxw : x = w
      · rw [hxw]
        exact hwf.adj_mem v hvn w hw
      · rw [hseq x hxw] at hx
        exact hinv.mem_nodes x hx
    · intro x
      by_cases hxw : x = w
      · rw [hxw, hsw2]
        constructor
        · intro hc
          injection hc with hc2
          omega
        · intro hc
          exact absurd ((hinv.prev_iff w).mpr hc) (by rw [hsw]; intro h2; cases h2)
      · rw [hseq x hxw]
        exact hinv.prev_iff x
    · intro x
      by_cases hxw : x = w
      · rw [hxw, hsw2]
        simp
      · rw [hseq x hxw]
        rw [List.mem_append, List.mem_singleton]
        constructor
        · intro hc
          exact Or.inl ((hinv.top_iff x).mp hc)
        · intro hc
          rcases hc with hc | hc
          · exact (hinv.top_iff x).mpr hc
          · exact absurd hc hxw
    · intro x
      by_cases hxw : x = w
      · rw [hxw, hsw2, hpw]
        simp
      · rw [hseq x hxw, hpeq x hxw]
        exact hinv.pred_dom x
    · rw [hpeq b (Ne.symm hwb)]
      exact hinv.pred_b
    · intro x l ps hx hp hl
      by_cases hxw : x = w
      · rw [hxw, hsw2] at hx
        injection hx with hx2
        rw [hxw, hpw] at hp
        injection hp with hp2
        rw [← hp2]
        refine ⟨by simp, ?_⟩
        intro u hu
        rw [List.mem_singleton] at hu
        rw [hu, hseq v (Ne.symm hwv), ← hx2]
        refine ⟨hv, ?_⟩
        rw [hxw]
        exact hw
      · rw [hseq x hxw] at hx
        rw [hpeq x hxw] at hp
        obtain ⟨hne, hall⟩ := hinv.pred_props x l ps hx hp hl
        refine ⟨hne, ?_⟩
        intro u hu
        obtain ⟨hu1, hu2⟩ := hall u hu
        have huw : u ≠ w := by
          intro he
          rw [he, hsw] at hu1
          cases hu1
        rw [hseq u huw]
        exact ⟨hu1, hu2⟩
    · intro x l hx hllt w2 hw2
      by_cases hxw : x = w
      · rw [hxw, hsw2] at hx
        injection hx with hx2
        omega
      · rw [hseq x hxw] at hx
        obtain ⟨lw, hlw1, hlw2⟩ := hinv.complete_lt x l hx hllt w2 hw2
        have hw2w : w2 ≠ w := by
          intro he
          rw [he, hsw] at hlw1
          cases hlw1
        rw [hseq w2 hw2w]
        exact ⟨lw, hlw1, hlw2⟩
  | some lw =>
    dsimp only
    by_cases hlw : lw = LV
    · rw [if_pos hlw]
      have hwb : w ≠ b := by
        intro he
        rw [he, hinv.seen_b] at hsw
        injection hsw with h2
        omega
      have hpeq : ∀ x, x ≠ w →
          fnUpdate st.pred w (some ((st.pred w).getD [] ++ [v])) x = st.pred x :=
        fun x hx => fnUpdate_ne _ _ hx
      have hpw : fnUpdate st.pred w (some ((st.pred w).getD [] ++ [v])) w =
          some ((st.pred w).getD [] ++ [v]) := fnUpdate_self _ _ _
      have hpredw : ∃ ops, st.pred w = some ops := by
        have := (hinv.pred_dom w).mpr (by rw [hsw]; rfl)
        exact Option.isSome_iff_exists.mp this
      obtain ⟨ops, hops⟩ := hpredw
      refine ⟨hinv.seen_b, hinv.zero_b, hinv.level_le, hinv.mem_nodes,
        hinv.prev_iff, hinv.top_iff, ?_, ?_, ?_, ?_⟩ <;> (try dsimp only)
      · intro x
        by_cases hxw : x = w
        · rw [hxw, hpw]
          constructor
          · intro _
            rw [hsw]
            rfl
          · intro _
            rfl
        · rw [hpeq x hxw]
          exact hinv.pred_dom x
      · rw [hpeq b (Ne.symm hwb)]
        exact hinv.pred_b
      · intro x l ps hx hp hl
        by_cases hxw : x = w
        · rw [hxw, hpw] at hp
          injection hp with hp2
          rw [hxw, hsw] at hx
          injection hx with hx2
          rw [← hp2, hops]
          simp only [Option.getD_some]
          refine ⟨by simp, ?_⟩
          intro u hu
          rw [List.mem_append, List.mem_singleton] at hu
          rcases hu with hu | hu
          · obtain ⟨-, hall⟩ := hinv.pred_props w lw ops hsw hops (by omega)
            obtain ⟨h1, h2⟩ := hall u hu
            refine ⟨?_, ?_⟩
            · rw [← hx2]
              exact h1
            · rw [hxw]
              exact h2
          · rw [hu, ← hx2, hlw]
            refine ⟨hv, ?_⟩
            rw [hxw]
            exact hw
        · rw [hpeq x hxw] at hp
          exact hinv.pred_props x l ps hx hp hl
      · exact hinv.complete_lt
    · rw [if_neg hlw]
      exact hinv

theorem visit_node_midinv {g : Graph} {b LV : Nat} {thislevel : List Nat} {v : Nat}
    (hwf : GraphWF g) (hLV : 1 ≤ LV) (hvn : v ∈ g.nodes) :
    ∀ (ws : List Nat), (∀ w ∈ ws, w ∈ g.adj v) → ∀ (st : bfsState),
      st.seen v = some (LV - 1) → BfsMidInv g b LV thislevel st →
      BfsMidInv g b LV thislevel (ws.foldl (bfs_visit_edge LV v) st) ∧
      (∀ w ∈ ws, ((ws.foldl (bfs_visit_edge LV v) st).seen w).isSome)
  | [], _, st, _, hinv => ⟨hinv, by simp⟩
  | w :: rest, hws, st, hv, hinv => by
    have hw : w ∈ g.adj v := hws w (List.mem_cons_self _ _)
    have hinv1 := visit_edge_midinv hwf hLV hv hvn hw hinv
    have hv1 : (bfs_visit_edge LV v st w).seen v = some (LV - 1) := visit_edge_seen_mono hv
    have hres := visit_node_midinv hwf hLV hvn rest
      (fun x hx => hws x (List.mem_cons_of_mem _ hx)) (bfs_visit_edge LV v st w) hv1 hinv1
    refine ⟨hres.1, ?_⟩
    intro w2 hw2
    rcases List.mem_cons.mp hw2 with he | he
    · subst he
      exact seen_isSome_mono_visit_node rest v _ w2 (visit_edge_seen_isSome w2)
    · exact hres.2 w2 he

theorem bfs_level_midinv {g : Graph} {b LV : Nat} {thislevel : List Nat}
    (hwf : GraphWF g) (hLV : 1 ≤ LV) :
    ∀ (tl : List Nat), (∀ x ∈ tl, x ∈ thislevel) → ∀ (st : bfsState),
      BfsMidInv g b LV thislevel st →
      BfsMidInv g b LV thislevel (bfs_level g LV tl st) ∧
      (∀ x ∈ tl, ∀ w ∈ g.adj x, ((bfs_level g LV tl st).seen w).isSome)
  | [], _, st, hinv => ⟨hinv, by simp⟩
  | x0 :: rest, htl, st, hinv => by
    have hx0 : st.seen x0 = some (LV - 1) :=
      (hinv.prev_iff x0).mpr (htl x0 (List.mem_cons_self _ _))
    have hx0n : x0 ∈ g.nodes := hinv.mem_nodes x0 (by rw [hx0]; rfl)
    have hnode := visit_node_midinv hwf hLV hx0n (g.adj x0) (fun _ h => h) st hx0 hinv
    have hres := bfs_level_midinv hwf hLV rest
      (fun y hy => htl y (List.mem_cons_of_mem _ hy)) (bfs_visit_node g LV st x0) hnode.1
    refine ⟨hres.1, ?_⟩
    intro y hy w hw
    rcases List.mem_cons.mp hy with he | he
    · subst he
      exact seen_isSome_mono_level rest _ w (hnode.2 w hw)
    · exact hres.2 y he w hw

theorem bfs_iter_loopinv {g : Graph} {b level : Nat} {nl : List Nat}
    {seen : Nat → Option Nat} {pred : Nat → Option (List Nat)}
    (hwf : GraphWF g) (hinv : BfsLoopInv g b level nl seen pred) :
    BfsLoopInv g b (level + 1) (bfs_level g (level + 1) nl ⟨seen, pred, []⟩).nextlevel
      (bfs_level g (level + 1) nl ⟨seen, pred, []⟩).seen
      (bfs_level g (level + 1) nl ⟨seen, pred, []⟩).pred := by
  have hmid0 : BfsMidInv g b (level + 1) nl ⟨seen, pred, []⟩ := by
    refine ⟨hinv.seen_b, hinv.zero_b, ?_, hinv.mem_nodes, ?_, ?_, hinv.pred_dom,
      hinv.pred_b, hinv.pred_props, ?_⟩
    · intro x l hx
      have := hinv.level_le x l hx
      omega
    · intro x
      simpa using hinv.top_mem x
    · intro x
      constructor
      · intro hx
        have := hinv.level_le x (level + 1) hx
        omega
      · intro hx
        exact absurd hx (List.not_mem_nil x)
    · intro x l hx hlt w hw
      exact hinv.complete x l hx (by omega) w hw
  obtain ⟨hmid1, hcomp⟩ := bfs_level_midinv hwf (by omega) nl (fun _ h => h) _ hmid0
  refine ⟨hmid1.seen_b, hmid1.zero_b, hmid1.level_le, hmid1.mem_nodes, hmid1.top_iff,
    hmid1.pred_dom, hmid1.pred_b, hmid1.pred_props, ?_⟩
  intro x l hx hlt w hw
  by_cases hl : l = level
  · have hxnl : x ∈ nl := by
      apply (hmid1.prev_iff x).mp
      simpa [hl] using hx
    have hsome := hcomp x hxnl w hw
    obtain ⟨lw, hlw⟩ := Option.isSome_iff_exists.mp hsome
    refine ⟨lw, hlw, ?_⟩
    have := hmid1.level_le w lw hlw
    omega
  · exact hmid1.complete_lt x l hx (by omega) w hw

theorem loopinv_to_final {g : Graph} {b level : Nat}
    {seen : Nat → Option Nat} {pred : Nat → Option (List Nat)}
    (hinv : BfsLoopInv g b level [] seen pred) : BfsFinal g b seen pred := by
  refine ⟨hinv.seen_b, hinv.zero_b, hinv.mem_nodes, hinv.pred_dom, hinv.pred_b,
    hinv.pred_props, ?_⟩
  intro x l hx w hw
  have hle := hinv.level_le x l hx
  by_cases hl : l = level
  · exact absurd ((hinv.top_mem x).mp (hl ▸ hx)) (List.not_mem_nil x)
  · exact hinv.complete x l hx (by omega) w hw

theorem countP_lt_of_flip {l : List Nat} {P Q : Nat → Bool}
    (hmono : ∀ x ∈ l, Q x = true → P x = true) {x0 : Nat} (hx0 : x0 ∈ l)
    (hP : P x0 = true) (hQ : Q x0 = false) : l.countP Q < l.countP P := by
  induction l with
  | nil => simp at hx0
  | cons a tl ih =>
    have hmono2 : ∀ x ∈ tl, Q x = true → P x = true :=
      fun x hx => hmono x (List.mem_cons_of_mem _ hx)
    have hle : tl.countP Q ≤ tl.countP P := List.countP_mono_left hmono2
    rcases List.mem_cons.mp hx0 with he | he
    · subst he
      rw [List.countP_cons, List.countP_cons, hP, hQ]
      simpa using Nat.lt_succ_of_le hle
    · have hlt := ih hmono2 he
      rw [List.countP_cons, List.countP_cons]
      by_cases ha : Q a = true
      · rw [ha, hmono a (List.mem_cons_self _ _) ha]
        simpa using hlt
      · rw [Bool.not_eq_true] at ha
        rw [ha]
        simp only [Bool.false_eq_true, if_neg, if_false, Nat.add_zero]
        by_cases hpa : P a = true
        · rw [hpa]
          simp
          omega
        · rw [Bool.not_eq_true] at hpa
          rw [hpa]
          simpa using hlt

theorem bfs_loop_nil {g : Graph} (fuel level : Nat) (st : bfsState) :
    bfs_loop g fuel level [] st = st := by
  cases fuel with
  | zero => rfl
  | succ f => rfl

theorem bfs_loop_final_aux {g : Graph} {b : Nat} (hwf : GraphWF g) :
    ∀ (fuel level : Nat) (nl : List Nat) (seen : Nat → Option Nat)
      (pred : Nat → Option (List Nat)) (nl0 : List Nat),
      BfsLoopInv g b level nl seen pred →
      g.nodes.countP (fun x => (seen x).isNone) + 1 ≤ fuel →
      BfsFinal g b (bfs_loop g fuel level nl ⟨seen, pred, nl0⟩).seen
        (bfs_loop g fuel level nl ⟨seen, pred, nl0⟩).pred
  | 0, level, nl, seen, pred, nl0, hinv, hfuel => absurd hfuel (by omega)
  | fuel + 1, level, [], seen, pred, nl0, hinv, hfuel => by
    rw [bfs_loop_nil]
    exact loopinv_to_final hinv
  | fuel + 1, level, y :: ys, seen, pred, nl0, hinv, hfuel => by
    have hstep : bfs_loop g (fuel + 1) level (y :: ys) ⟨seen, pred, nl0⟩ =
        bfs_loop g fuel (level + 1)
          (bfs_level g (level + 1) (y :: ys) ⟨seen, pred, []⟩).nextlevel
          (bfs_level g (level + 1) (y :: ys) ⟨seen, pred, []⟩) := rfl
    have hinv1 := bfs_iter_loopinv hwf hinv
    cases hnl1 : (bfs_level g (level + 1) (y :: ys) ⟨seen, pred, []⟩).nextlevel with
    | nil =>
      rw [hstep, hnl1, bfs_loop_nil]
      rw [hnl1] at hinv1
      exact loopinv_to_final hinv1
    | cons z zs =>
      have hz_top : (bfs_level g (level + 1) (y :: ys) ⟨seen, pred, []⟩).seen z =
          some (level + 1) := by
        apply (hinv1.top_mem z).mpr
        rw [hnl1]
        exact List.mem_cons_self _ _
      have hz_nodes : z ∈ g.nodes := hinv1.mem_nodes z (by rw [hz_top]; rfl)
      have hz_old : seen z = none := by
        cases hc : seen z with
        | none => rfl
        | some l =>
          have hmono := bfs_level_seen_mono g (level + 1) (y :: ys) ⟨seen, pred, []⟩ z l hc
          rw [hz_top] at hmono
          injection hmono with h2
          have := hinv.level_le z l hc
          omega
      have hmono2 : ∀ x ∈ g.nodes,
          ((bfs_level g (level + 1) (y :: ys) ⟨seen, pred, []⟩).seen x).isNone = true →
          (seen x).isNone = true := by
        intro x _ hx
        cases hc : seen x with
        | none => rfl
        | some l =>
          have := bfs_level_seen_mono g (level + 1) (y :: ys) ⟨seen, pred, []⟩ x l hc
          rw [this] at hx
          cases hx
      have hcount := countP_lt_of_flip hmono2 hz_nodes
        (by rw [hz_old]; rfl) (by rw [hz_top]; rfl)
      rw [hstep]
      exact bfs_loop_final_aux hwf fuel (level + 1)
        (bfs_level g (level + 1) (y :: ys) ⟨seen, pred, []⟩).nextlevel
        (bfs_level g (level + 1) (y :: ys) ⟨seen, pred, []⟩).seen
        (bfs_level g (level + 1) (y :: ys) ⟨seen, pred, []⟩).pred
        (bfs_level g (level + 1) (y :: ys) ⟨seen, pred, []⟩).nextlevel
        hinv1 (by omega)

theorem nx_predecessor_final {g : Graph} {b : Nat} (hwf : GraphWF g) (hb : b ∈ g.nodes) :
    BfsFinal g b (nx_predecessor g b).seen (nx_predecessor g b).pred := by
  unfold nx_predecessor
  apply bfs_loop_final_aux hwf
  · refine ⟨fnUpdate_self _ _ _, ?_, ?_, ?_, ?_, ?_, fnUpdate_self _ _ _, ?_, ?_⟩
    · intro x hx
      by_cases hxb : x = b
      · exact hxb
      · rw [fnUpdate_ne _ _ hxb] at hx
        cases hx
    · intro x l hx
      by_cases hxb : x = b
      · rw [hxb, fnUpdate_self] at hx
        injection hx with h2
        omega
      · rw [fnUpdate_ne _ _ hxb] at hx
        cases hx
    · intro x hx
      by_cases hxb : x = b
      · rw [hxb]
        exact hb
      · rw [fnUpdate_ne _ _ hxb] at hx
        cases hx
    · intro x
      by_cases hxb : x = b
      · rw [hxb, fnUpdate_self]
        simp
      · rw [fnUpdate_ne _ _ hxb]
        simp [hxb]
    · intro x
      by_cases hxb : x = b
      · rw [hxb, fnUpdate_self, fnUpdate_self]
        simp
      · rw [fnUpdate_ne _ _ hxb, fnUpdate_ne _ _ hxb]
        simp
    · intro x l ps hx hp hl
      by_cases hxb : x = b
      · rw [hxb, fnUpdate_self] at hx
        injection hx with h2
        omega
      · rw [fnUpdate_ne _ _ hxb] at hx
        cases hx
    · intro x l hx hlt
      omega
  · have hle : g.nodes.countP
        (fun x => (fnUpdate (fun _ => none) b (some 0) x).isNone) ≤ g.nodes.length :=
      List.countP_le_length _
    omega

theorem Walk.zero_eq {g : Graph} {x y : Nat} (h : Walk g x y 0) : x = y := by
  cases h
  rfl

theorem Walk.one_adj {g : Graph} {x y : Nat} (h : Walk g x y 1) : y ∈ g.adj x := by
  cases h with
  | cons hadj htail =>
    cases htail
    exact hadj

theorem Walk.snoc {g : Graph} {x y z : Nat} {n : Nat}
    (h : Walk g x y n) (hz : z ∈ g.adj y) : Walk g x z (n + 1) := by
  induction h with
  | nil a => exact Walk.cons hz (Walk.nil z)
  | cons hadj htail ih => exact Walk.cons hadj (ih hz)

theorem Walk.reverse {g : Graph} (hwf : GraphWF g) {x y n : Nat}
    (h : Walk g x y n) : Walk g y x n := by
  induction h with
  | nil a => exact Walk.nil a
  | cons hadj htail ih => exact ih.snoc (adj_symm_total hwf hadj)

theorem bfs_seen_walk {g : Graph} {b : Nat} {seen : Nat → Option Nat}
    {pred : Nat → Option (List Nat)}
    (hwf : GraphWF g) (hF : BfsFinal g b seen pred) :
    ∀ (l x : Nat), seen x = some l → Walk g x b l
  | 0, x, hx => by
    rw [hF.zero_b x hx]
    exact Walk.nil b
  | l + 1, x, hx => by
    have hps := (hF.pred_dom x).mpr (by rw [hx]; rfl)
    obtain ⟨ps, hp⟩ := Option.isSome_iff_exists.mp hps
    obtain ⟨hne, hall⟩ := hF.pred_props x (l + 1) ps hx hp (by omega)
    obtain ⟨u, hu⟩ := List.exists_mem_of_ne_nil ps hne
    obtain ⟨hu1, hu2⟩ := hall u hu
    have hadj : u ∈ g.adj x := adj_symm_total hwf hu2
    have hw := bfs_seen_walk hwf hF l u (by simpa using hu1)
    exact Walk.cons hadj hw

theorem bfs_walk_seen_le {g : Graph} {b : Nat} {seen : Nat → Option Nat}
    {pred : Nat → Option (List Nat)} (hF : BfsFinal g b seen pred)
    {y x m : Nat} (hw : Walk g y x m) :
    ∀ ly, seen y = some ly → ∃ lx, seen x = some lx ∧ lx ≤ ly + m := by
  induction hw with
  | nil a =>
    intro ly hy
    exact ⟨ly, hy, by omega⟩
  | cons hadj htail ih =>
    intro ly hy
    obtain ⟨lz, hlz, hlz2⟩ := hF.complete _ ly hy _ hadj
    obtain ⟨lx, hlx, hlx2⟩ := ih lz hlz
    exact ⟨lx, hlx, by omega⟩

theorem shortest_dist_seen {g : Graph} {b : Nat} {seen : Nat → Option Nat}
    {pred : Nat → Option (List Nat)}
    (hwf : GraphWF g) (hF : BfsFinal g b seen pred) {a d : Nat}
    (hd : isShortestDist g a b d) : seen a = some d := by
  obtain ⟨hwalk, hmin⟩ := hd
  have hrev : Walk g b a d := Walk.reverse hwf hwalk
  obtain ⟨l, hl, hle⟩ := bfs_walk_seen_le hF hrev 0 hF.seen_b
  have hwalk2 : Walk g a b l := bfs_seen_walk hwf hF l a hl
  have hdl := hmin l hwalk2
  have : l = d := by omega
  rw [← this]
  exact hl

theorem seen_chain {g : Graph} {b : Nat} {seen : Nat → Option Nat}
    {pred : Nat → Option (List Nat)} (hF : BfsFinal g b seen pred) :
    ∀ (l x : Nat), seen x = some l →
      ∃ xs : List Nat, xs.Nodup ∧ xs.length = l + 1 ∧ (∀ y ∈ xs, y ∈ g.nodes) ∧
        (∀ y ∈ xs, ∃ ly, seen y = some ly ∧ ly ≤ l)
  | 0, x, hx => by
    refine ⟨[x], List.nodup_singleton _, rfl, ?_, ?_⟩
    · intro y hy
      rw [List.mem_singleton.mp hy]
      exact hF.mem_nodes x (by rw [hx]; rfl)
    · intro y hy
      rw [List.mem_singleton.mp hy]
      exact ⟨0, hx, Nat.le_refl 0⟩
  | l + 1, x, hx => by
    have hps := (hF.pred_dom x).mpr (by rw [hx]; rfl)
    obtain ⟨ps, hp⟩ := Option.isSome_iff_exists.mp hps
    obtain ⟨hne, hall⟩ := hF.pred_props x (l + 1) ps hx hp (by omega)
    obtain ⟨u, hu⟩ := List.exists_mem_of_ne_nil ps hne
    obtain ⟨hu1, hu2⟩ := hall u hu
    obtain ⟨xs, hnd, hlen, hmem, hlev⟩ := seen_chain hF l u (by simpa using hu1)
    refine ⟨x :: xs, ?_, by simp [hlen], ?_, ?_⟩
    · rw [List.nodup_cons]
      refine ⟨?_, hnd⟩
      intro hxm
      obtain ⟨ly, hly, hle⟩ := hlev x hxm
      rw [hx] at hly
      injection hly with h2
      omega
    · intro y hy
      rcases List.mem_cons.mp hy with he | he
      · rw [he]
        exact hF.mem_nodes x (by rw [hx]; rfl)
      · exact hmem y he
    · intro y hy
      rcases List.mem_cons.mp hy with he | he
      · rw [he]
        exact ⟨l + 1, hx, Nat.le_refl _⟩
      · obtain ⟨ly, hly, hle⟩ := hlev y he
        exact ⟨ly, hly, by omega⟩

theorem seen_level_bound {g : Graph} {b : Nat} {seen : Nat → Option Nat}
    {pred : Nat → Option (List Nat)} (hF : BfsFinal g b seen pred)
    {l x : Nat} (hx : seen x = some l) : l < g.nodes.length := by
  obtain ⟨xs, hnd, hlen, hmem, -⟩ := seen_chain hF l x hx
  have hsub : xs ⊆ g.nodes := fun y hy => hmem y hy
  have := (List.subperm_of_subset hnd hsub).length_le
  omega

theorem bfs_paths_head {pred : Nat → Option (List Nat)} {b : Nat} :
    ∀ (fuel n : Nat) (p : List Nat), p ∈ bfs_paths pred b fuel n → ∃ q, p = n :: q
  | 0, n, p, hp => by
    simp only [bfs_paths] at hp
    by_cases hnb : n = b
    · rw [if_pos hnb] at hp
      rw [List.mem_singleton.mp hp]
      exact ⟨[], rfl⟩
    · rw [if_neg hnb] at hp
      cases hp
  | fuel + 1, n, p, hp => by
    simp only [bfs_paths] at hp
    rw [List.mem_append] at hp
    rcases hp with hp | hp
    · by_cases hnb : n = b
      · rw [if_pos hnb] at hp
        rw [List.mem_singleton.mp hp]
        exact ⟨[], rfl⟩
      · rw [if_neg hnb] at hp
        cases hp
    · obtain ⟨m, hm, hp2⟩ := List.mem_flatMap.mp hp
      obtain ⟨q, hq, hpq⟩ := List.mem_map.mp hp2
      exact ⟨q, hpq.symm⟩

theorem bfs_paths_second {pred : Nat → Option (List Nat)} {b : Nat}
    {fuel n : Nat} (hnb : n ≠ b) {p : List Nat}
    (hp : p ∈ bfs_paths pred b (fuel + 1) n) :
    ∃ u ∈ (pred n).getD [], ∃ q ∈ bfs_paths pred b fuel u,
      p = n :: q ∧ q.head? = some u := by
  simp only [bfs_paths, if_neg hnb, List.nil_append] at hp
  obtain ⟨u, hu, hp2⟩ := List.mem_flatMap.mp hp
  obtain ⟨q, hq, hpq⟩ := List.mem_map.mp hp2
  refine ⟨u, hu, q, hq, hpq.symm, ?_⟩
  obtain ⟨q2, hq2⟩ := bfs_paths_head fuel u q hq
  rw [hq2]
  rfl

theorem bfs_paths_ne_nil {g : Graph} {b : Nat} {seen : Nat → Option Nat}
    {pred : Nat → Option (List Nat)} (hF : BfsFinal g b seen pred) :
    ∀ (k n : Nat), seen n = some k → ∀ fuel, k ≤ fuel → bfs_paths pred b fuel n ≠ []
  | 0, n, hn, fuel, hf => by
    have hnb : n = b := hF.zero_b n hn
    cases fuel with
    | zero => simp [bfs_paths, hnb]
    | succ f => simp [bfs_paths, hnb]
  | k + 1, n, hn, fuel, hf => by
    have hnb : n ≠ b := by
      intro he
      rw [he, hF.seen_b] at hn
      injection hn with h2
      omega
    cases fuel with
    | zero => omega
    | succ f =>
      have hps := (hF.pred_dom n).mpr (by rw [hn]; rfl)
      obtain ⟨ps, hp⟩ := Option.isSome_iff_exists.mp hps
      obtain ⟨hne, hall⟩ := hF.pred_props n (k + 1) ps hn hp (by omega)
      obtain ⟨u, hu⟩ := List.exists_mem_of_ne_nil ps hne
      obtain ⟨hu1, -⟩ := hall u hu
      have hrec := bfs_paths_ne_nil hF k u (by simpa using hu1) f (by omega)
      obtain ⟨q, hq⟩ := List.exists_mem_of_ne_nil _ hrec
      intro hc
      simp only [bfs_paths, if_neg hnb, List.nil_append] at hc
      rw [List.flatMap_eq_nil_iff] at hc
      have := hc u (by rw [hp]; exact hu)
      rw [List.map_eq_nil_iff] at this
      rw [this] at hq
      cases hq

theorem asp_mem_shape {g : Graph} {a b : Nat}
    (hab : a ≠ b) {p : List Nat} (hp : p ∈ all_shortest_paths g a b) :
    ∃ ps, (nx_predecessor g b).pred a = some ps ∧
      ∃ u ∈ ps, ∃ q, p = a :: q ∧ q.head? = some u ∧ routeNext p = some u := by
  unfold all_shortest_paths at hp
  by_cases hs : ((nx_predecessor g b).pred a).isSome
  · rw [if_pos hs] at hp
    obtain ⟨ps, hps⟩ := Option.isSome_iff_exists.mp hs
    have hlen : g.nodes.length + 1 = g.nodes.length + 1 := rfl
    obtain ⟨u, hu, q, hq, hpq, hqh⟩ := bfs_paths_second hab hp
    rw [hps] at hu
    simp only [Option.getD_some] at hu
    refine ⟨ps, hps, u, hu, q, hpq, hqh, ?_⟩
    rw [hpq, routeNext]
    cases q with
    | nil => cases hqh
    | cons u2 t =>
      have h2 : u2 = u := by
        have : some u2 = some u := hqh
        injection this
      simp [h2]
  · rw [if_neg hs] at hp
    cases hp

theorem asp_second_isSome {g : Graph} {a b : Nat}
    (hab : a ≠ b) : ∀ p ∈ all_shortest_paths g a b, (routeNext p).isSome := by
  intro p hp
  obtain ⟨ps, -, u, -, q, -, -, hrn⟩ := asp_mem_shape hab hp
  rw [hrn]
  rfl

theorem asp_ne_nil {g : Graph} {a b : Nat} (hwf : GraphWF g) (hb : b ∈ g.nodes)
    {k : Nat} (hk : (nx_predecessor g b).seen a = some k) :
    all_shortest_paths g a b ≠ [] := by
  have hF := nx_predecessor_final hwf hb
  unfold all_shortest_paths
  have hs : ((nx_predecessor g b).pred a).isSome :=
    (hF.pred_dom a).mpr (by rw [hk]; rfl)
  rw [if_pos hs]
  have hbound := seen_level_bound hF hk
  exact bfs_paths_ne_nil hF k a hk (g.nodes.length + 1) (by omega)

theorem assocFind_nodes_map {α : Type} (f : Nat → α) :
    ∀ (ks : List Nat), ks.Nodup → ∀ d ∈ ks,
      assocFind (ks.map (fun x => (x, f x))) d = some (f d)
  | [], _, d, hd => by cases hd
  | k :: rest, hnd, d, hd => by
    by_cases hdk : d = k
    · rw [hdk]
      simp [assocFind]
    · rcases List.mem_cons.mp hd with he | he
      · exact absurd he hdk
      · simp only [List.map_cons, assocFind, if_neg hdk]
        exact assocFind_nodes_map f rest (List.nodup_cons.mp hnd).2 d he

theorem update_routes_lookup {g : Graph} {i dest : Nat} (hnd : g.nodes.Nodup)
    (hdest : dest ∈ g.nodes) (hne : dest ≠ i) :
    assocFind (update_routes_info g i []) dest = some (buildRouteList g i dest) := by
  unfold update_routes_info
  rw [foldl_assocSet_map (fun d => buildRouteList g i d) (g.nodes.filter (fun d => d ≠ i))
    [] (hnd.filter _) (fun d _ => rfl)]
  rw [List.nil_append]
  apply assocFind_nodes_map _ _ (hnd.filter _)
  rw [List.mem_filter]
  exact ⟨hdest, by simp [hne]⟩

theorem preferred_next_step {g : Graph} {b : Nat} (hwf : GraphWF g) (hb : b ∈ g.nodes)
    {cur k : Nat} (hcur : (nx_predecessor g b).seen cur = some k) (hk : 1 ≤ k) :
    ∃ nxt, preferred_next g cur b = some nxt ∧
      (nx_predecessor g b).seen nxt = some (k - 1) := by
  have hF := nx_predecessor_final hwf hb
  have hcb : cur ≠ b := by
    intro he
    rw [he, hF.seen_b] at hcur
    injection hcur with h2
    omega
  have hasp_ne := asp_ne_nil hwf hb hcur
  obtain ⟨p0, rest, hrs⟩ := List.exists_cons_of_ne_nil hasp_ne
  obtain ⟨ps, hps, u, hu, q, hpq, hqh, hrn⟩ :=
    asp_mem_shape hcb (p := p0) (by rw [hrs]; exact List.mem_cons_self p0 rest)
  have hhead := buildRouteList_head g cur b (asp_second_isSome hcb)
  rw [hrs] at hhead
  simp only [List.head?_cons] at hhead
  rw [show (some p0).bind routeNext = routeNext p0 from rfl, hrn] at hhead
  refine ⟨u, ?_, ?_⟩
  · unfold preferred_next
    rw [update_routes_lookup hwf.nodes_nodup hb (Ne.symm hcb)]
    exact hhead
  · obtain ⟨-, hall⟩ := hF.pred_props cur k ps hcur hps hk
    exact (hall u hu).1

theorem follow_preferred_level {g : Graph} {b : Nat} (hwf : GraphWF g) (hb : b ∈ g.nodes) :
    ∀ (j k cur : Nat), (nx_predecessor g b).seen cur = some k → j ≤ k →
      ∃ x, follow_preferred g b j cur = some x ∧
        (nx_predecessor g b).seen x = some (k - j)
  | 0, k, cur, hcur, _ => ⟨cur, rfl, by simpa using hcur⟩
  | j + 1, k, cur, hcur, hj => by
    obtain ⟨nxt, hn1, hn2⟩ := preferred_next_step hwf hb hcur (by omega)
    obtain ⟨x, hx1, hx2⟩ := follow_preferred_level hwf hb j (k - 1) nxt hn2 (by omega)
    refine ⟨x, ?_, ?_⟩
    · simp only [follow_preferred, hn1]
      exact hx1
    · have heq : k - 1 - j = k - (j + 1) := by omega
      rw [← heq]
      exact hx2

/-- C1: for every well-formed topology and every connected pair `(a, b)`
at shortest-path hop distance `d`, following the preferred next hop (the
`next` field of the index-0 entry of `routes_info`, as built by
`update_routes_info`) router by router starting from `a` reaches `b`
after exactly `d` hops — and not earlier. Each hop lands on a router
whose BFS level (distance to `b`) is one smaller, so the chain length
matches the graph distance. -/
theorem preferred_route_shortest (g : Graph) (a b d : Nat)
    (hwf : GraphWF g) (hb : b ∈ g.nodes) (hd : isShortestDist g a b d) :
    follow_preferred g b d a = some b ∧
    ∀ j, j < d → follow_preferred g b j a ≠ some b := by
  have hF := nx_predecessor_final hwf hb
  have hseen : (nx_predecessor g b).seen a = some d := shortest_dist_seen hwf hF hd
  constructor
  · obtain ⟨x, hx1, hx2⟩ := follow_preferred_level hwf hb d d a hseen (Nat.le_refl d)
    have hx3 : x = b := hF.zero_b x (by simpa using hx2)
    rw [hx3] at hx1
    exact hx1
  · intro j hj
    obtain ⟨x, hx1, hx2⟩ := follow_preferred_level hwf hb j d a hseen (by omega)
    rw [hx1]
    intro hc
    injection hc with h2
    rw [h2, hF.seen_b] at hx2
    injection hx2 with h3
    omega

/-- Witness for C1 on the 2-by-2 mesh: routers 0 and 3 are at distance
2, and the preferred next-hop chain from 0 reaches 3 in exactly 2 hops
(not in 0 or 1). -/
theorem preferred_route_shortest_witness :
    GraphWF gSquare ∧ 3 ∈ gSquare.nodes ∧ isShortestDist gSquare 0 3 2 ∧
    follow_preferred gSquare 3 2 0 = some 3 ∧
    follow_preferred gSquare 3 0 0 ≠ some 3 ∧
    follow_preferred gSquare 3 1 0 ≠ some 3 := by
  have hwf : GraphWF gSquare := ⟨by decide, by decide, by decide, by decide⟩
  have hwalk : Walk gSquare 0 3 2 :=
    Walk.cons (show (1 : Nat) ∈ gSquare.adj 0 by decide)
      (Walk.cons (show (3 : Nat) ∈ gSquare.adj 1 by decide) (Walk.nil 3))
  have hmin : ∀ m, Walk gSquare 0 3 m → 2 ≤ m := by
    intro m hm
    by_contra hlt
    push_neg at hlt
    interval_cases m
    · exact absurd (Walk.zero_eq hm) (by decide)
    · exact absurd (Walk.one_adj hm) (by decide)
  have hd : isShortestDist gSquare 0 3 2 := ⟨hwalk, hmin⟩
  have hthm := preferred_route_shortest gSquare 0 3 2 hwf (by decide) hd
  exact ⟨hwf, by decide, hd, hthm.1, hthm.2 0 (by decide), hthm.2 1 (by decide)⟩
